import Mathlib

/-!
# gostruct-ast: the DDL parser and the tag builder of `table/table.go`

A shallow embedding of `src/table/table.go`.

* A Go `[]byte` / `string` is a list of bytes; a byte is a natural number
  (every constant the code compares with is below 256).
* A Go panic (index out of range, nil dereference, slice bounds) is `none`.
* `int` and `uint` are the 64-bit types of the usual targets (amd64, arm64).
* Pointers: a `*Field` created by `parseField` is appended to `Table.Fields`
  and never removed, so the pointer is modelled by the position in `Fields`;
  `nameFiledMap` maps a raw name to such a position. An `*Index` is never
  changed after it has been attached, so it is modelled by its value.
* The three helpers `trimLine`, `trim` and `title` are called by the code but
  are not defined in the files at hand; every function takes them as the
  parameter `H`.
* `GenCode` builds a syntax tree, prints it with `go/printer` and hands the
  text to `format.Source`, which returns no bytes when the text does not parse.
  The two libraries are the parameter `fmt` of `GenCode`; `goFormat` is the
  model of them that is used to evaluate `GenCode` on tables with ASCII names.
-/

namespace GoStruct

/-- A byte string. -/
abbrev Bytes := List Nat

/-- The bytes of an ASCII text literal. -/
def txt (s : String) : Bytes := s.toList.map Char.toNat

/-! ## Library functions of `bytes` and `strings` -/

/-- `bytes.Split(s, []byte{sep})` and `strings.Split(s, sep)` for a one-byte separator:
all pieces, at least one. -/
def split (sep : Nat) : Bytes → List Bytes
  | [] => [[]]
  | c :: cs =>
    if c = sep then [] :: split sep cs
    else
      match split sep cs with
      | [] => [[c]]
      | p :: ps => (c :: p) :: ps

/-- Leading bytes equal to `c` removed. -/
def trimLeftByte (c : Nat) : Bytes → Bytes
  | [] => []
  | b :: bs => if b = c then trimLeftByte c bs else b :: bs

/-- Trailing bytes equal to `c` removed. -/
def trimRightByte (c : Nat) (s : Bytes) : Bytes :=
  (trimLeftByte c s.reverse).reverse

/-- `bytes.Trim(s, cutset)` for a cutset of one ASCII byte. -/
def trimByte (c : Nat) (s : Bytes) : Bytes :=
  trimRightByte c (trimLeftByte c s)

/-- `bytes.HasPrefix`. -/
def hasPrefix (s p : Bytes) : Bool := p.isPrefixOf s

/-- `bytes.TrimPrefix` for a one-byte argument. -/
def trimPrefixByte (c : Nat) : Bytes → Bytes
  | [] => []
  | b :: bs => if b = c then bs else b :: bs

/-- `bytes.TrimSuffix` for a one-byte argument. -/
def trimSuffixByte (c : Nat) (s : Bytes) : Bytes :=
  (trimPrefixByte c s.reverse).reverse

/-- `bytes.Index(s, sep)` for a non-empty `sep`: the suffix of `s` that starts at the
first occurrence of `sep`, or `none` when the index is `-1`. -/
def dropToFirst (sep : Bytes) : Bytes → Option Bytes
  | [] => none
  | c :: cs => if sep.isPrefixOf (c :: cs) then some (c :: cs) else dropToFirst sep cs

/-! ### UTF-8 (`unicode/utf8`) -/

/-- `utf8.RuneError`. -/
def RuneError : Nat := 0xFFFD

/-- The table `first` of `unicode/utf8` for the lead bytes of multi-byte sequences:
the size of the sequence and the accepted range of its second byte. -/
def leadInfo (b : Nat) : Option (Nat × Nat × Nat) :=
  if 0xC2 ≤ b ∧ b ≤ 0xDF then some (2, 0x80, 0xBF)
  else if b = 0xE0 then some (3, 0xA0, 0xBF)
  else if 0xE1 ≤ b ∧ b ≤ 0xEC then some (3, 0x80, 0xBF)
  else if b = 0xED then some (3, 0x80, 0x9F)
  else if 0xEE ≤ b ∧ b ≤ 0xEF then some (3, 0x80, 0xBF)
  else if b = 0xF0 then some (4, 0x90, 0xBF)
  else if 0xF1 ≤ b ∧ b ≤ 0xF3 then some (4, 0x80, 0xBF)
  else if b = 0xF4 then some (4, 0x80, 0x8F)
  else none

/-- `utf8.DecodeRune`: the first rune of `p` and its width in bytes. -/
def decodeRune : Bytes → Nat × Nat
  | [] => (RuneError, 0)
  | p0 :: rest =>
    if p0 < 0x80 then (p0, 1)
    else
      match leadInfo p0 with
      | none => (RuneError, 1)
      | some (sz, lo, hi) =>
        if rest.length + 1 < sz then (RuneError, 1)
        else
          match rest with
          | [] => (RuneError, 1)
          | b1 :: rest1 =>
            if b1 < lo ∨ hi < b1 then (RuneError, 1)
            else if sz ≤ 2 then ((p0 % 32) * 64 + b1 % 64, 2)
            else
              match rest1 with
              | [] => (RuneError, 1)
              | b2 :: rest2 =>
                if b2 < 0x80 ∨ 0xBF < b2 then (RuneError, 1)
                else if sz ≤ 3 then ((p0 % 16) * 4096 + (b1 % 64) * 64 + b2 % 64, 3)
                else
                  match rest2 with
                  | [] => (RuneError, 1)
                  | b3 :: _ =>
                    if b3 < 0x80 ∨ 0xBF < b3 then (RuneError, 1)
                    else ((p0 % 8) * 262144 + (b1 % 64) * 4096 + (b2 % 64) * 64 + b3 % 64, 4)

/-- `utf8.RuneStart`. -/
def runeStart (b : Nat) : Bool := decide (b / 64 % 4 ≠ 2)

/-- The loop of `utf8.DecodeLastRune` that walks back from `start` to the limit `lim`
looking for the start of a rune; the result is the final value of `start`
(`-1` of the code is reported as `0`, as the code does right after). -/
def lastRuneStart (p : Bytes) (lim : Nat) : Nat → Nat
  | 0 => 0
  | start + 1 =>
    if start < lim then start
    else if runeStart (p.getD start 0) then start
    else lastRuneStart p lim start

/-- `utf8.DecodeLastRune`: the last rune of `p` and its width in bytes. -/
def decodeLastRune (p : Bytes) : Nat × Nat :=
  let n := p.length
  if n = 0 then (RuneError, 0)
  else
    let last := p.getD (n - 1) 0
    if last < 0x80 then (last, 1)
    else
      let lim := n - 4
      let start := lastRuneStart p lim (n - 1)
      let rs := decodeRune (p.drop start)
      if start + rs.2 ≠ n then (RuneError, 1) else rs

/-- `unicode.IsSpace`. -/
def isSpace (r : Nat) : Bool :=
  if r ≤ 0xFF then
    decide (r = 9 ∨ r = 10 ∨ r = 11 ∨ r = 12 ∨ r = 13 ∨ r = 32 ∨ r = 0x85 ∨ r = 0xA0)
  else
    decide (r = 0x1680 ∨ (0x2000 ≤ r ∧ r ≤ 0x200A) ∨ r = 0x2028 ∨ r = 0x2029 ∨ r = 0x202F
      ∨ r = 0x205F ∨ r = 0x3000)

/-- The table `asciiSpace` of `bytes`. -/
def asciiSpace (c : Nat) : Bool :=
  decide (c = 9 ∨ c = 10 ∨ c = 11 ∨ c = 12 ∨ c = 13 ∨ c = 32)

/-- `bytes.TrimLeftFunc(s, unicode.IsSpace)`, by recursion on a bound for the number of runes. -/
def trimLeftSpaceFunc : Nat → Bytes → Bytes
  | 0, _ => []
  | _ + 1, [] => []
  | fuel + 1, b :: bs =>
    let rw := if b < 0x80 then (b, 1) else decodeRune (b :: bs)
    if isSpace rw.1 then trimLeftSpaceFunc fuel ((b :: bs).drop rw.2) else b :: bs

/-- The loop of `bytes.lastIndexFunc(s, unicode.IsSpace, false)` from position `i` down:
the start of the last rune before `i` that is not a space, `none` for `-1`. -/
def lastNonSpace (s : Bytes) : Nat → Nat → Option Nat
  | 0, _ => none
  | fuel + 1, i =>
    if i = 0 then none
    else
      let b := s.getD (i - 1) 0
      let rw := if b < 0x80 then (b, 1) else decodeLastRune (s.take i)
      let i1 := i - rw.2
      if isSpace rw.1 then lastNonSpace s fuel i1 else some i1

/-- `bytes.TrimRightFunc(s, unicode.IsSpace)`. -/
def trimRightSpaceFunc (s : Bytes) : Bytes :=
  match lastNonSpace s (s.length + 1) s.length with
  | none => []
  | some i =>
    if 0x80 ≤ s.getD i 0 then s.take (i + (decodeRune (s.drop i)).2) else s.take (i + 1)

/-- `bytes.TrimFunc(s, unicode.IsSpace)`. -/
def trimSpaceFunc (s : Bytes) : Bytes :=
  trimRightSpaceFunc (trimLeftSpaceFunc (s.length + 1) s)

/-- The second loop of `bytes.TrimSpace`, on the reversed remainder: ASCII spaces are
dropped from the end; at the first byte that is not ASCII the Unicode-aware
`TrimFunc` takes over on what is left. -/
def trimSpaceEnd (s : Bytes) : Bytes → Bytes
  | [] => []
  | c :: rev =>
    if 0x80 ≤ c then trimSpaceFunc s
    else if asciiSpace c then trimSpaceEnd s.dropLast rev
    else s

/-- `bytes.TrimSpace`. -/
def trimSpace : Bytes → Bytes
  | [] => []
  | c :: cs =>
    if 0x80 ≤ c then trimSpaceFunc (c :: cs)
    else if asciiSpace c then trimSpace cs
    else trimSpaceEnd (c :: cs) (c :: cs).reverse

/-- `strings.Split(s, "")`: one piece per UTF-8 sequence, an invalid byte being a piece
of its own; `fuel` bounds the number of pieces. -/
def explode : Nat → Bytes → List Bytes
  | 0, _ => []
  | _ + 1, [] => []
  | fuel + 1, b :: bs =>
    let w := (decodeRune (b :: bs)).2
    (b :: bs).take w :: explode fuel ((b :: bs).drop w)

/-! ### `strconv.Atoi` -/

/-- The outcome of `strconv.ParseUint(s, 10, 64)`. -/
inductive UintResult where
  | ok (n : Nat)
  | syntaxErr
  | rangeErr
  deriving DecidableEq, Repr

/-- The digit loop of `strconv.ParseUint` in base 10 with 64 bits, `n` being the value
read so far. -/
def parseUintLoop : Nat → Bytes → UintResult
  | n, [] => .ok n
  | n, c :: cs =>
    if 48 ≤ c ∧ c ≤ 57 then
      if n ≥ (2 ^ 64 - 1) / 10 + 1 then .rangeErr
      else
        let n10 := (n * 10) % 2 ^ 64
        let n1 := (n10 + (c - 48)) % 2 ^ 64
        if n1 < n10 ∨ n1 > 2 ^ 64 - 1 then .rangeErr
        else parseUintLoop n1 cs
    else .syntaxErr

/-- `strconv.ParseUint(s, 10, 64)`. -/
def parseUint (s : Bytes) : UintResult :=
  if s = [] then .syntaxErr else parseUintLoop 0 s

/-- The value returned by `strconv.ParseInt(s, 10, 0)` (the error is dropped by the
caller): `0` on a syntax error, the nearest bound when out of range. -/
def parseInt (s : Bytes) : Int :=
  match s with
  | [] => 0
  | c :: cs =>
    let neg := decide (c = 45)
    let body := if c = 43 ∨ c = 45 then cs else c :: cs
    match parseUint body with
    | .syntaxErr => 0
    | .rangeErr => if neg then -(2 ^ 63 : Int) else 2 ^ 63 - 1
    | .ok un =>
      if !neg ∧ un ≥ 2 ^ 63 then 2 ^ 63 - 1
      else if neg ∧ un > 2 ^ 63 then -(2 ^ 63 : Int)
      else if neg then -(un : Int) else (un : Int)

/-- The value of `strconv.Atoi(s)`; its fast path for short inputs returns what
`ParseInt` returns. -/
def atoi (s : Bytes) : Int := parseInt s

/-- The conversion `uint(x)` of an `int`. -/
def toUint (x : Int) : Nat := (x % 2 ^ 64).toNat

/-- The verb `%d` of `fmt.Sprintf` for a non-negative number, by recursion on a bound
for the number of digits. -/
def decimalAux : Nat → Nat → Bytes → Bytes
  | 0, _, acc => acc
  | fuel + 1, n, acc =>
    if n < 10 then (48 + n) :: acc
    else decimalAux fuel (n / 10) ((48 + n % 10) :: acc)

/-- The decimal numeral of `n`. -/
def decimal (n : Nat) : Bytes := decimalAux (n + 1) n []

/-! ### `bufio.Reader.ReadLine` over `bytes.NewReader(data)` -/

/-- The size of the buffer of `bufio.NewReader`. -/
def bufSize : Nat := 4096

/-- The line without the `\r` that stands right before its `\n`. -/
def dropCR (line : Bytes) : Bytes :=
  if line.getLast? = some 13 then line.dropLast else line

/-- The successive results of `ReadLine` until `io.EOF`; `cur` holds the bytes that are
buffered and not yet returned. A line ends at `\n` (dropped, with one `\r` before
it); when the buffer is full before a `\n` is seen, its content is returned as a
line of its own, a final `\r` staying behind for the next call. -/
def readLinesAux : Bytes → Bytes → List Bytes
  | cur, [] => if cur = [] then [] else [cur]
  | cur, c :: rest =>
    if c = 10 then dropCR cur :: readLinesAux [] rest
    else if cur.length + 1 = bufSize then
      if c = 13 then cur :: readLinesAux [13] rest
      else (cur ++ [c]) :: readLinesAux [] rest
    else readLinesAux (cur ++ [c]) rest

/-- All lines that the loop of `Parse` reads from `data`. -/
def readLines (data : Bytes) : List Bytes := readLinesAux [] data

/-! ## The data model -/

/-- The configuration `Config`. -/
structure Config where
  UseGormTag : Bool
  UseJsonTag : Bool
  SortField : Bool
  PkgName : Bytes
  deriving DecidableEq, Repr

/-- The record `defaultValue`. -/
structure defaultValue where
  value : Bytes
  valid : Bool
  deriving DecidableEq, Repr

/-- The record `Type` of the source (`Type` is reserved in Lean). -/
structure TypeRec where
  size : Nat
  decimalSize : Nat
  name : Bytes
  deriving DecidableEq, Repr

/-- `Type.String`. -/
def TypeRec.String (t : TypeRec) : Bytes :=
  if t.name = [] then txt "interface\x7b\x7d" else t.name

/-- `IndexType`, an `int`. -/
abbrev IndexType := Nat

/-- `Normal`, the first value after the skipped zero of the `iota` block. -/
def Normal : IndexType := 1

/-- `Unique`. -/
def Unique : IndexType := 2

/-- `IndexType.Name`. -/
def IndexType.Name (t : IndexType) : Bytes :=
  if t = Normal then txt "index"
  else if t = Unique then txt "uniqueIndex"
  else []

/-- The record `Index`; its field `Type` is `Typ` here. -/
structure Index where
  Fields : List Bytes
  Typ : IndexType
  RawName : Bytes
  Comment : Bytes
  deriving DecidableEq, Repr

/-- The record `Field`; its field `Type`, a pointer that may be nil, is `Typ` here. The
pointer `table` is not stored: the functions that follow it take the table. -/
structure Field where
  Name : Bytes
  RawName : Bytes
  Default : defaultValue
  TypeName : Bytes
  RawTypeName : Bytes
  Comment : Bytes
  AutoIncrement : Bool
  Unsigned : Bool
  NotNull : Bool
  Typ : Option TypeRec
  indexes : List Index
  deriving DecidableEq, Repr

/-- The record `Table` (its field `model` is never read by the parser or the generator
and is left out). A map is a list of key-value pairs without repeated keys. -/
structure Table extends Config where
  Name : Bytes
  RawName : Bytes
  Fields : List Field
  PrimaryKeys : List Bytes
  Indexes : List Index
  nameFiledMap : List (Bytes × Nat)
  Imports : List (Bytes × Bytes)
  Comment : Bytes
  deriving DecidableEq, Repr

/-- The assignment `m[k] = v` of a Go map. -/
def mapSet {ν : Type} (m : List (Bytes × ν)) (k : Bytes) (v : ν) : List (Bytes × ν) :=
  match m with
  | [] => [(k, v)]
  | (k1, v1) :: rest => if k1 = k then (k, v) :: rest else (k1, v1) :: mapSet rest k v

/-- The lookup `v, ok := m[k]` of a Go map. -/
def mapGet {ν : Type} (m : List (Bytes × ν)) (k : Bytes) : Option ν :=
  match m with
  | [] => none
  | (k1, v1) :: rest => if k1 = k then some v1 else mapGet rest k

/-- The element at position `i` replaced by its image under `g`. -/
def modifyAt {α : Type} (g : α → α) : Nat → List α → List α
  | _, [] => []
  | 0, x :: xs => g x :: xs
  | i + 1, x :: xs => x :: modifyAt g i xs

/-- `newTable`. -/
def newTable : Table :=
  { UseGormTag := false, UseJsonTag := false, SortField := false, PkgName := [],
    Name := [], RawName := [], Fields := [], PrimaryKeys := [], Indexes := [],
    nameFiledMap := [], Imports := [], Comment := [] }

/-- `Config.Build`. -/
def Config.Build (c : Config) : Table := { newTable with toConfig := c }

/-- The helpers of package `table` that the code calls and the files at hand do not
define. -/
structure Helpers where
  trimLine : Bytes → Bytes
  trim : Bytes → Bytes
  title : Bytes → Bytes

/-! ## The parser -/

/-- The assignment `f.Type.name = name`; it panics on a nil `f.Type`. -/
def setTypeName (f : Field) (name : Bytes) : Option Field :=
  match f.Typ with
  | none => none
  | some tp => some { f with Typ := some { tp with name := name } }

/-- `Field.getType`. The table is the one `f.table` points to. -/
def getType (t : Table) (f : Field) : Option (Table × Field) :=
  if f.TypeName = txt "tinyint" then do
    let f1 ← setTypeName f (txt "int")
    let tp ← f1.Typ
    if tp.size = 1 then
      let f2 ← setTypeName f1 (txt "bool")
      pure (t, f2)
    else pure (t, f1)
  else if f.TypeName = txt "smallint" then do
    let f1 ← setTypeName f (txt "int16")
    if f1.Unsigned then
      let f2 ← setTypeName f1 (txt "uint16")
      pure (t, f2)
    else pure (t, f1)
  else if f.TypeName = txt "int" ∨ f.TypeName = txt "integer" then do
    let f1 ← setTypeName f (txt "int")
    if f1.Unsigned then
      let f2 ← setTypeName f1 (txt "uint")
      pure (t, f2)
    else pure (t, f1)
  else if f.TypeName = txt "bigint" then do
    let f1 ← setTypeName f (txt "int64")
    if f1.Unsigned then
      let f2 ← setTypeName f1 (txt "uint64")
      pure (t, f2)
    else pure (t, f1)
  else if f.TypeName = txt "decimal" ∨ f.TypeName = txt "float" then do
    let f1 ← setTypeName f (txt "float64")
    pure (t, f1)
  else if f.TypeName = txt "char" ∨ f.TypeName = txt "varchar" ∨ f.TypeName = txt "text"
      ∨ f.TypeName = txt "longtext" then do
    let f1 ← setTypeName f (txt "string")
    pure (t, f1)
  else if f.TypeName = txt "date" ∨ f.TypeName = txt "datetime"
      ∨ f.TypeName = txt "timestamp" ∨ f.TypeName = txt "time" then do
    let f1 ← setTypeName f (txt "time.Time")
    pure ({ t with Imports := mapSet t.Imports (txt " ") (txt "time") }, f1)
  else if f.TypeName = txt "json" then do
    let f1 ← setTypeName f (txt "interface\x7b\x7d")
    pure (t, f1)
  else some (t, f)

/-- `Field.parseType`. -/
def parseType (t : Table) (f : Field) : Option (Table × Field) :=
  if f.TypeName = [] then some (t, f)
  else
    match split 40 f.TypeName with
    | [] => none
    | base :: [] =>
      getType t { f with Typ := some { size := 0, decimalSize := 0, name := [] }, TypeName := base }
    | base :: inner :: _ =>
      let lengths := explode inner.length inner
      if lengths = [] then none
      else
        match split 44 lengths.dropLast.flatten with
        | [] => none
        | s0 :: [] =>
          getType t { f with
            Typ := some { size := toUint (atoi s0), decimalSize := 0, name := [] },
            TypeName := base }
        | s0 :: s1 :: _ =>
          getType t { f with
            Typ := some { size := toUint (atoi s0), decimalSize := toUint (atoi s1), name := [] },
            TypeName := base }

/-- The loop of `parseField` over `contents[i:]`, from `i = 2` on. -/
def parseFieldLoop (f : Field) : List Bytes → Option Field
  | [] => some f
  | value :: rest =>
    if value = txt "NOT" then
      match rest with
      | [] => none
      | next :: rest2 =>
        parseFieldLoop (if next = txt "NULL" then { f with NotNull := true } else f) rest2
    else if value = txt "DEFAULT" then
      match rest with
      | [] => none
      | next :: _ =>
        parseFieldLoop
          { f with Default :=
              { value := if next.length = 2 then txt "''" else trimByte 39 next, valid := true } }
          rest
    else if value = txt "COMMENT" then
      match rest with
      | [] => none
      | next :: rest2 => parseFieldLoop { f with Comment := trimByte 39 next } rest2
    else if value = txt "AUTO_INCREMENT" then parseFieldLoop { f with AutoIncrement := true } rest
    else if value = txt "unsigned" then parseFieldLoop { f with Unsigned := true } rest
    else parseFieldLoop f rest

/-- The zero value `Field{}`. -/
def emptyField : Field :=
  { Name := [], RawName := [], Default := { value := [], valid := false }, TypeName := [],
    RawTypeName := [], Comment := [], AutoIncrement := false, Unsigned := false,
    NotNull := false, Typ := none, indexes := [] }

/-- `Table.parseField`. The new field is complete when it is put at the end of `Fields`:
the code appends the pointer first and fills the record through it. -/
def parseField (H : Helpers) (t : Table) (line : Bytes) : Option Table :=
  match split 32 line with
  | c0 :: c1 :: rest => do
    let name := H.trim c0
    let f : Field :=
      { emptyField with
        Name := H.title name, RawName := name, TypeName := H.trim c1, RawTypeName := H.trim c1 }
    let f1 ← parseFieldLoop f rest
    let (t1, f2) ← parseType t f1
    pure { t1 with
      Fields := t.Fields ++ [f2],
      nameFiledMap := mapSet t.nameFiledMap name t.Fields.length }
  | _ => some t

/-- `Table.parseComment`. -/
def parseComment (t : Table) (line : Bytes) : Table :=
  match dropToFirst (txt "COMMENT") line with
  | none => t
  | some line1 =>
    match split 32 line1 with
    | [] => t
    | line2 :: _ =>
      match split 61 line2 with
      | _ :: line3 :: _ => { t with Comment := trimByte 39 (trimByte 59 line3) }
      | _ => t

/-- The body of the loop of `parseKey`: one token of the column list, stripped. -/
def keyName (content : Bytes) : Bytes :=
  trimByte 96 (trimSuffixByte 44 (trimSuffixByte 41 (trimPrefixByte 40 (trimSpace content))))

/-- `Table.parseKey`. -/
def parseKey (t : Table) (line : Bytes) : Table :=
  match split 32 line with
  | _ :: _ :: c2 :: rest => { t with PrimaryKeys := t.PrimaryKeys ++ (c2 :: rest).map keyName }
  | _ => t

/-- The slice `v[1 : len(v)-1]`; it panics when `v` has fewer than two bytes. -/
def inner (v : Bytes) : Option Bytes :=
  if v.length < 2 then none else some ((v.drop 1).take (v.length - 2))

/-- The loop over `bytes.Split(fields, ',')` that fills `idx.Fields`. -/
def indexFields : List Bytes → Option (List Bytes)
  | [] => some []
  | v :: vs => do
    let name ← inner v
    let names ← indexFields vs
    pure (name :: names)

/-- The loop that looks for `COMMENT` in the tokens after the column list; `c` is the
comment found so far. -/
def indexComment (c : Bytes) : List Bytes → Option Bytes
  | [] => some c
  | v :: rest =>
    if v = txt "COMMENT" then
      match rest with
      | [] => none
      | next :: _ => indexComment next rest
    else indexComment c rest

/-- The last loop of `parseIndex` and `parseUniqueIndex`: the index is appended to the
back-references of every field that the map holds under one of its column names. -/
def attachIndex (idx : Index) : Table → List Bytes → Table
  | t, [] => t
  | t, v :: vs =>
    match mapGet t.nameFiledMap v with
    | some j =>
      attachIndex idx
        { t with Fields := modifyAt (fun f => { f with indexes := f.indexes ++ [idx] }) j t.Fields }
        vs
    | none => attachIndex idx t vs

/-- `Table.parseUniqueIndex`. -/
def parseUniqueIndex (H : Helpers) (t : Table) (line : Bytes) : Option Table :=
  match split 32 line with
  | _ :: _ :: c2 :: rest =>
    match rest with
    | [] => none
    | c3 :: rest4 => do
      let fields ← inner c3
      let names ← indexFields (split 44 fields)
      let comment ← indexComment [] rest4
      let idx : Index := { Fields := names, Typ := Unique, RawName := H.trim c2, Comment := comment }
      pure (attachIndex idx t idx.Fields)
  | _ => some t

/-- `Table.parseIndex`. -/
def parseIndex (H : Helpers) (t : Table) (line : Bytes) : Option Table :=
  match split 32 line with
  | _ :: c1 :: rest =>
    match rest with
    | [] => none
    | c2 :: rest3 => do
      let fields ← inner c2
      let names ← indexFields (split 44 fields)
      let comment ← indexComment [] rest3
      let idx : Index := { Fields := names, Typ := Normal, RawName := H.trim c1, Comment := comment }
      pure (attachIndex idx t idx.Fields)
  | _ => some t

/-- The body of the loop of `Parse` for one line that `ReadLine` returned; the state is
the table and the local variable `continueComment`. -/
def parseLine (H : Helpers) (st : Table × Bool) (raw : Bytes) : Option (Table × Bool) :=
  let line := H.trimLine raw
  if line = [] then some st
  else if hasPrefix line (txt "/*") then some (st.1, true)
  else if hasPrefix line (txt "*/") then some (st.1, false)
  else if hasPrefix line (txt "--") || st.2 || hasPrefix line (txt "SET")
      || hasPrefix line (txt "DROP") then some st
  else if hasPrefix line (txt "CREATE TABLE") then
    match split 32 line with
    | _ :: _ :: c2 :: _ =>
      some ({ st.1 with RawName := H.trim c2, Name := H.title (H.trim c2) }, st.2)
    | _ => none
  else
    match trimByte 44 line with
    | [] => none
    | c :: cs =>
      if c = 41 then some (parseComment st.1 (c :: cs), st.2)
      else if c = 96 then (parseField H st.1 (c :: cs)).map (fun t => (t, st.2))
      else if c = 80 then some (parseKey st.1 (c :: cs), st.2)
      else if c = 73 ∨ c = 75 then (parseIndex H st.1 (c :: cs)).map (fun t => (t, st.2))
      else if c = 85 then (parseUniqueIndex H st.1 (c :: cs)).map (fun t => (t, st.2))
      else some st

/-- The loop of `Parse` over the lines read. -/
def parseLines (H : Helpers) : Table × Bool → List Bytes → Option (Table × Bool)
  | st, [] => some st
  | st, l :: ls =>
    match parseLine H st l with
    | none => none
    | some st1 => parseLines H st1 ls

/-- `Table.Parse`: the table after the call, `none` when the call panics. -/
def Parse (H : Helpers) (t : Table) (data : Bytes) : Option Table :=
  if data = [] then some t
  else (parseLines H (t, false) (readLines data)).map Prod.fst

/-! ## The generator -/

/-- `toComment`. -/
def toComment (str : Bytes) : Bytes := txt "// " ++ str

/-- `strings.Join`. -/
def joinWith (sep : Bytes) : List Bytes → Bytes
  | [] => []
  | [a] => a
  | a :: b :: rest => a ++ sep ++ joinWith sep (b :: rest)

/-- The inner loop of `buildTag` over `index.Fields` from position `k` on: one fragment
for every position that holds the raw name of the field. -/
def indexTags (rawName : Bytes) (index : Index) : Nat → List Bytes → List Bytes
  | _, [] => []
  | k, v :: vs =>
    if v = rawName then
      (index.Typ.Name ++ txt ":" ++ index.RawName ++ txt ",priority:" ++ decimal (k + 1))
        :: indexTags rawName index (k + 1) vs
    else indexTags rawName index (k + 1) vs

/-- The local variable `gormTags` of `buildTag` when the tag is assembled: the fragments
of the ORM tag, in order. -/
def gormTags (t : Table) (f : Field) : List Bytes :=
  [txt "column:" ++ f.RawName ++ txt ";type:" ++ f.RawTypeName]
    ++ (if f.Default.valid then [txt "default:" ++ f.Default.value] else [])
    ++ (t.PrimaryKeys.filter (fun v => v = f.RawName)).map (fun _ => txt "primaryKey")
    ++ (f.indexes.map (fun index => indexTags f.RawName index 0 index.Fields)).flatten

/-- `buildTag`: the value of the tag literal, `none` for the nil tag. The table is the one
`t.table` points to. -/
def buildTag (t : Table) (f : Field) : Option Bytes :=
  if !t.UseJsonTag && !t.UseGormTag then none
  else
    let tags : List Bytes :=
      (if t.UseJsonTag then [txt "json:\"" ++ f.RawName ++ txt "\""] else [])
        ++ (if t.UseGormTag then [txt "gorm:\"" ++ joinWith (txt ";") (gormTags t f) ++ txt "\""]
            else [])
    some (txt "`" ++ joinWith (txt " ") tags ++ txt "`")

/-- One member of the struct type that `GenCode` declares (an `ast.Field`). -/
structure Member where
  Name : Bytes
  Typ : Bytes
  Tag : Option Bytes
  Comment : Option Bytes
  deriving DecidableEq, Repr

/-- The syntax tree (`ast.File`) that `GenCode` hands to the printer: the package name,
the import paths, the doc comment and the name of the type, its members, and the
receiver and the returned literal of the method `TableName`. -/
structure File where
  PkgName : Bytes
  Imports : List Bytes
  Doc : Option Bytes
  TypeName : Bytes
  Members : List Member
  Receiver : Bytes
  TableName : Bytes
  deriving DecidableEq, Repr

/-- The result of `GenCode`: no bytes at all, or the source text that `go/printer` and
`go/format` print for a syntax tree that `format.Source` accepts. -/
inductive Output where
  | empty
  | source (file : File)
  deriving DecidableEq, Repr

/-- What `GenCode` uses of `go/printer` and `go/format`, which are library code: whether
`format.Source` accepts the text that `printer.Fprint` prints for a syntax tree, that
is, whether this text parses as a Go source file. When it does not, `format.Source`
returns an error and no bytes. -/
abbrev Formatter := File → Bool

/-- The keywords of Go. -/
def goKeywords : List Bytes :=
  [txt "break", txt "case", txt "chan", txt "const", txt "continue", txt "default",
   txt "defer", txt "else", txt "fallthrough", txt "for", txt "func", txt "go", txt "goto",
   txt "if", txt "import", txt "interface", txt "map", txt "package", txt "range",
   txt "return", txt "select", txt "struct", txt "switch", txt "type", txt "var"]

/-- An ASCII letter or the underscore. -/
def isLetter (c : Nat) : Bool :=
  decide ((65 ≤ c ∧ c ≤ 90) ∨ (97 ≤ c ∧ c ≤ 122) ∨ c = 95)

/-- An ASCII digit. -/
def isDigit (c : Nat) : Bool := decide (48 ≤ c ∧ c ≤ 57)

/-- An identifier of Go written in ASCII: a letter or underscore, then letters, digits
and underscores, and no keyword. (Go also accepts the letters and digits of Unicode;
a name with a byte outside ASCII is outside the range of this definition and is
answered with `false`.) -/
def goIdentifier (s : Bytes) : Bool :=
  match s with
  | [] => false
  | c :: cs => isLetter c && cs.all (fun b => isLetter b || isDigit b) && !goKeywords.contains s

/-- What the scanner of Go demands of every piece of a source text: valid UTF-8, no NUL
byte and no byte order mark; `fuel` bounds the number of runes. -/
def goText : Nat → Bytes → Bool
  | 0, _ => true
  | _ + 1, [] => true
  | fuel + 1, b :: bs =>
    let rw := decodeRune (b :: bs)
    if b = 0 ∨ (rw.1 = RuneError ∧ rw.2 = 1) ∨ rw.1 = 0xFEFF then false
    else goText fuel ((b :: bs).drop rw.2)

/-- The text of a member type that parses in a struct type: nothing (the member is then
read as an embedded field), an identifier, a qualified identifier such as
`time.Time`, or `interface{}`. These are the texts `getType` can leave in `Type.name`. -/
def goTypeName (s : Bytes) : Bool :=
  s = [] || s = txt "interface\x7b\x7d" || goIdentifier s
    || (match split 46 s with
        | [a, b] => goIdentifier a && goIdentifier b
        | _ => false)

/-- A line comment: it ends at the first line feed. -/
def goComment (c : Bytes) : Bool := hasPrefix c (txt "//") && !c.contains 10 && goText c.length c

/-- A raw string literal: between two backticks, with no backtick inside. -/
def goRawString (lit : Bytes) : Bool :=
  match lit with
  | 96 :: rest =>
    rest.getLast? = some 96 && !rest.dropLast.contains 96 && goText rest.length rest
  | _ => false

/-- An interpreted string literal without escape sequences: between two double quotes,
with no double quote, backslash or line feed inside. (A body with a backslash is
outside the range of this definition and is answered with `false`.) -/
def goString (lit : Bytes) : Bool :=
  match lit with
  | 34 :: rest =>
    rest.getLast? = some 34 && !rest.dropLast.contains 34 && !rest.dropLast.contains 92
      && !rest.dropLast.contains 10 && goText rest.length rest
  | _ => false

/-- A member that parses as a field of a struct type. -/
def goMember (m : Member) : Bool :=
  goIdentifier m.Name && goTypeName m.Typ
    && (match m.Tag with
        | none => true
        | some tag => goRawString tag)
    && (match m.Comment with
        | none => true
        | some c => goComment c)

/-- The formatter on the trees that `GenCode` builds, decided on the text they print as:
the package clause, the type declaration, its members and the receiver of the method
need identifiers; the tags, the import paths and the returned literal need
well-formed string literals; the comments must stay on their line. An empty package
name, or a name that is no identifier, makes `format.Source` fail. -/
def goFormat : Formatter := fun file =>
  goIdentifier file.PkgName
    && file.Imports.all goString
    && (match file.Doc with
        | none => true
        | some c => goComment c)
    && goIdentifier file.TypeName
    && file.Members.all goMember
    && goIdentifier file.Receiver
    && goString file.TableName

/-- The loop of `GenCode` over `t.Fields`: the members and the import paths, `seen` being
the entry of `impMap` for `time.Time`. It panics on a field whose `Type` is nil. -/
def genMembers (t : Table) : List Field → Bool → Option (List Member × List Bytes)
  | [], _ => some ([], [])
  | v :: vs, seen => do
    let tp ← v.Typ
    let member : Member :=
      { Name := v.Name, Typ := tp.name, Tag := buildTag t v,
        Comment := if v.Comment = [] then none else some (toComment v.Comment) }
    let needed := decide (tp.name = txt "time.Time") && !seen
    let (members, paths) ← genMembers t vs (seen || needed)
    pure (member :: members, if needed then txt "\"time\"" :: paths else paths)

/-- The last two statements of `GenCode`: the tree is printed and the text is handed to
`format.Source`, whose error is dropped; on an error the returned bytes are nil. -/
def formatSource (fmt : Formatter) (file : File) : Output :=
  if fmt file then Output.source file else Output.empty

/-- `Table.GenCode`; `none` when the call panics. The formatter is a parameter. -/
def GenCode (fmt : Formatter) (t : Table) : Option Output :=
  if t.Name = [] then some Output.empty
  else do
    let (members, paths) ← genMembers t t.Fields false
    let receiverName ← (explode t.RawName.length t.RawName).head?
    pure (formatSource fmt
      { PkgName := t.PkgName, Imports := paths,
        Doc := if t.Comment = [] then none else some (toComment (t.Name ++ txt " " ++ t.Comment)),
        TypeName := t.Name, Members := members, Receiver := receiverName,
        TableName := txt "\"" ++ t.RawName ++ txt "\"" })

/-! ## The helpers, from the specification -/

/-- Leading bytes that are in `cutset` removed. -/
def trimLeftSet (cutset : Bytes) : Bytes → Bytes
  | [] => []
  | b :: bs => if b ∈ cutset then trimLeftSet cutset bs else b :: bs

/-- Leading and trailing bytes that are in `cutset` removed. -/
def trimSet (cutset : Bytes) (s : Bytes) : Bytes :=
  (trimLeftSet cutset (trimLeftSet cutset s).reverse).reverse

/-- Modelled from the spec: the helper `trimLine`, which is not in the files at hand.
The lines are "CRLF/LF-normalized, trailing whitespace trimmed": trailing blanks,
tabs, carriage returns and line feeds are removed. -/
def trimLine (line : Bytes) : Bytes :=
  (trimLeftSet [32, 9, 13, 10] line.reverse).reverse

/-- Modelled from the spec: the helper `trim`, which is not in the files at hand.
A name is taken "with surrounding quote characters stripped": backticks, single
quotes and double quotes are removed at both ends. -/
def trim (data : Bytes) : Bytes := trimSet [96, 39, 34] data

/-- Modelled from the spec: the helper `title`, which is not in the files at hand.
A raw name is made an exported identifier "by capitalizing the first rune": a first
byte that is a lower-case ASCII letter becomes the upper-case letter. -/
def title (data : Bytes) : Bytes :=
  match data with
  | [] => []
  | b :: bs => if 97 ≤ b ∧ b ≤ 122 then (b - 32) :: bs else b :: bs

/-- The three helpers as the specification describes them. -/
def specHelpers : Helpers := { trimLine := trimLine, trim := trim, title := title }

/-! ## The type table of the specification -/

/-- The table of the specification (section 4.2), row by row: the resolved type for a
base type name, the unsigned flag and the size; `none` for "any other" name. -/
def specTypeTable (raw : Bytes) (unsigned : Bool) (size : Nat) : Option Bytes :=
  if raw = txt "tinyint" then some (if size = 1 then txt "bool" else txt "int")
  else if raw = txt "smallint" then some (if unsigned then txt "uint16" else txt "int16")
  else if raw = txt "int" ∨ raw = txt "integer" then
    some (if unsigned then txt "uint" else txt "int")
  else if raw = txt "bigint" then some (if unsigned then txt "uint64" else txt "int64")
  else if raw = txt "decimal" ∨ raw = txt "float" then some (txt "float64")
  else if raw = txt "char" ∨ raw = txt "varchar" ∨ raw = txt "text" ∨ raw = txt "longtext" then
    some (txt "string")
  else if raw = txt "date" ∨ raw = txt "datetime" ∨ raw = txt "timestamp" ∨ raw = txt "time" then
    some (txt "time.Time")
  else if raw = txt "json" then some (txt "interface\x7b\x7d")
  else none

/-- The table after type resolution: the date-time types register the import of `time`. -/
def withTimeImport (t : Table) (raw : Bytes) : Table :=
  if raw = txt "date" ∨ raw = txt "datetime" ∨ raw = txt "timestamp" ∨ raw = txt "time" then
    { t with Imports := mapSet t.Imports (txt " ") (txt "time") }
  else t

/-! ## Inputs of the statements -/

/-- A modifier of a column definition. -/
inductive Modifier where
  | unsigned
  | notNull
  | autoIncrement
  deriving DecidableEq, Repr

/-- The tokens that write a modifier in a field line. -/
def Modifier.tokens : Modifier → List Bytes
  | .unsigned => [txt "unsigned"]
  | .notNull => [txt "NOT", txt "NULL"]
  | .autoIncrement => [txt "AUTO_INCREMENT"]

/-- A field line: the column token, the type token and the modifiers in the given order,
separated by single blanks. -/
def fieldLine (col typ : Bytes) (ms : List Modifier) : Bytes :=
  joinWith (txt " ") (col :: typ :: (ms.map Modifier.tokens).flatten)

/-- A column name between backticks. -/
def quoted (f : Bytes) : Bytes := txt "`" ++ f ++ txt "`"

/-- The column list of an index line: the quoted names, separated by commas without a
blank, between parentheses. -/
def columnList (fs : List Bytes) : Bytes :=
  txt "(" ++ joinWith (txt ",") (fs.map quoted) ++ txt ")"

/-- The tokens `COMMENT x` at the end of an index line, if there is a comment. -/
def commentTokens : Option Bytes → List Bytes
  | none => []
  | some x => [txt "COMMENT", x]

/-- A unique index line: `UNIQUE KEY name (...)` with an optional `COMMENT x`. -/
def uniqueIndexLine (name : Bytes) (fs : List Bytes) (comment : Option Bytes) : Bytes :=
  joinWith (txt " ") ([txt "UNIQUE", txt "KEY", name, columnList fs] ++ commentTokens comment)

/-- A plain index line: `KEY name (...)` or `INDEX name (...)` with an optional
`COMMENT x`; `keyword` is the first word. -/
def indexLine (keyword name : Bytes) (fs : List Bytes) (comment : Option Bytes) : Bytes :=
  joinWith (txt " ") ([keyword, name, columnList fs] ++ commentTokens comment)

/-- A column of type `int` as `parseField` records it. -/
def intColumn (raw name : Bytes) : Field :=
  { emptyField with
    Name := name, RawName := raw, TypeName := txt "int", RawTypeName := txt "int",
    Typ := some { size := 0, decimalSize := 0, name := txt "int" } }

/-- The table after the field lines `` `a` int `` and `` `b` int ``, ORM tags enabled. -/
def twoColumns : Table :=
  { newTable with
    UseGormTag := true,
    Fields := [intColumn (txt "a") (txt "A"), intColumn (txt "b") (txt "B")],
    nameFiledMap := [(txt "a", 0), (txt "b", 1)] }

/-- The trailer line `) ENGINE=InnoDB COMMENT='c';` of a table definition. -/
def trailerLine (c : Bytes) : Bytes := txt ") ENGINE=InnoDB COMMENT='" ++ c ++ txt "';"

/-- The configuration with the package name `model`, without tags, and the sort option
as given. -/
def modelConfig (sort : Bool) : Config :=
  { UseGormTag := false, UseJsonTag := false, SortField := sort, PkgName := txt "model" }

/-- The table `t` of package `model` with the columns `b` and `a`, declared in this order,
and the sort option as given. -/
def columnsBA (sort : Bool) : Table :=
  { (modelConfig sort).Build with
    Name := txt "T", RawName := txt "t",
    Fields := [intColumn (txt "b") (txt "B"), intColumn (txt "a") (txt "A")],
    nameFiledMap := [(txt "b", 0), (txt "a", 1)] }

/-- The field `g` with the index `idx` appended `n` times to its back-references and
nothing else changed. -/
def gainIndex (g : Field) (n : Nat) (idx : Index) : Field :=
  { g with indexes := g.indexes ++ List.replicate n idx }

/-- The text made of the given lines, each closed by a line feed. -/
def ddlLines (lines : List Bytes) : Bytes := (lines.map (fun l => l ++ [10])).flatten

/-- On a field that has a `Type` record, `getType` returns, and it changes nothing but the
name of that record (and the imports of the table). -/
theorem getType_eq (t : Table) (f : Field) (tp : TypeRec) (h : f.Typ = some tp) :
    getType t f = some (withTimeImport t f.TypeName,
      { f with Typ := some { tp with
          name := (specTypeTable f.TypeName f.Unsigned tp.size).getD tp.name } }) := by
  obtain ⟨n, rn, d, tn, rtn, c, ai, u, nn, ty, ix⟩ := f
  obtain ⟨sz, dsz, nm⟩ := tp
  simp only at h
  subst h
  by_cases h1 : tn = txt "tinyint"
  · subst h1
    by_cases hs : sz = 1
    · subst hs; rfl
    · simp only [getType, specTypeTable, withTimeImport, setTypeName, if_true, if_neg hs,
        Option.bind_eq_bind, Option.some_bind, Option.pure_def, Option.getD_some]
      rfl
  by_cases h2 : tn = txt "smallint"
  · subst h2; cases u <;> rfl
  by_cases h3 : tn = txt "int"
  · subst h3; cases u <;> rfl
  by_cases h4 : tn = txt "integer"
  · subst h4; cases u <;> rfl
  by_cases h5 : tn = txt "bigint"
  · subst h5; cases u <;> rfl
  by_cases h6 : tn = txt "decimal"
  · subst h6; rfl
  by_cases h7 : tn = txt "float"
  · subst h7; rfl
  by_cases h8 : tn = txt "char"
  · subst h8; rfl
  by_cases h9 : tn = txt "varchar"
  · subst h9; rfl
  by_cases h10 : tn = txt "text"
  · subst h10; rfl
  by_cases h11 : tn = txt "longtext"
  · subst h11; rfl
  by_cases h12 : tn = txt "date"
  · subst h12; rfl
  by_cases h13 : tn = txt "datetime"
  · subst h13; rfl
  by_cases h14 : tn = txt "timestamp"
  · subst h14; rfl
  by_cases h15 : tn = txt "time"
  · subst h15; rfl
  by_cases h16 : tn = txt "json"
  · subst h16; rfl
  simp only [getType, specTypeTable, withTimeImport, h1, h2, h3, h4, h5, h6, h7, h8, h9, h10,
    h11, h12, h13, h14, h15, h16, if_false, or_self, Option.getD_none]

/-! ### Splitting, runes and numerals -/

theorem split_of_not_mem {sep : Nat} {s : Bytes} (h : sep ∉ s) : split sep s = [s] := by
  induction s with
  | nil => simp [split]
  | cons c cs ih =>
    have hc : ¬ c = sep := fun e => h (by simp [e])
    have hcs : sep ∉ cs := fun e => h (by simp [e])
    simp [split, hc, ih hcs]

theorem split_append_sep {sep : Nat} {a : Bytes} (b : Bytes) (h : sep ∉ a) :
    split sep (a ++ sep :: b) = a :: split sep b := by
  induction a with
  | nil => simp [split]
  | cons c cs ih =>
    have hc : ¬ c = sep := fun e => h (by simp [e])
    have hcs : sep ∉ cs := fun e => h (by simp [e])
    simp [split, hc, ih hcs]

theorem decodeRune_ascii (b : Nat) (bs : Bytes) (h : b < 128) : decodeRune (b :: bs) = (b, 1) := by
  simp [decodeRune, h]

theorem explode_ascii : ∀ (s : Bytes) (fuel : Nat), (∀ x ∈ s, x < 128) → s.length ≤ fuel →
    explode fuel s = s.map (fun x => [x]) := by
  intro s
  induction s with
  | nil => intro fuel _ _; cases fuel <;> simp [explode]
  | cons c cs ih =>
    intro fuel h hl
    cases fuel with
    | zero => simp at hl
    | succ k =>
      have hc : c < 128 := h c (by simp)
      simp only [explode, decodeRune_ascii c cs hc, List.take_succ_cons, List.take_zero,
        List.drop_succ_cons, List.drop_zero, List.map_cons]
      rw [ih k (fun x hx => h x (by simp [hx])) (by simpa using hl)]

theorem flatten_map_singleton (s : Bytes) : (s.map (fun x => [x])).flatten = s := by
  induction s with
  | nil => rfl
  | cons c cs ih => simp [ih]

theorem decimalAux_digits : ∀ (fuel n : Nat) (acc : Bytes), (∀ x ∈ acc, 48 ≤ x ∧ x ≤ 57) →
    ∀ x ∈ decimalAux fuel n acc, 48 ≤ x ∧ x ≤ 57 := by
  intro fuel
  induction fuel with
  | zero => intro n acc h; simpa [decimalAux] using h
  | succ k ih =>
    intro n acc h
    unfold decimalAux
    split_ifs with hn
    · intro x hx
      simp only [List.mem_cons] at hx
      rcases hx with hx | hx
      · omega
      · exact h x hx
    · apply ih
      intro x hx
      simp only [List.mem_cons] at hx
      rcases hx with hx | hx
      · omega
      · exact h x hx

theorem decimal_digits (n : Nat) : ∀ x ∈ decimal n, 48 ≤ x ∧ x ≤ 57 :=
  decimalAux_digits (n + 1) n [] (by simp)

theorem decimalAux_ne_nil : ∀ (fuel n : Nat) (acc : Bytes), fuel ≠ 0 ∨ acc ≠ [] →
    decimalAux fuel n acc ≠ [] := by
  intro fuel
  induction fuel with
  | zero => intro n acc h; simpa [decimalAux] using h
  | succ k ih =>
    intro n acc _
    unfold decimalAux
    split_ifs
    · simp
    · exact ih _ _ (Or.inr (by simp))

theorem decimal_ne_nil (n : Nat) : decimal n ≠ [] :=
  decimalAux_ne_nil (n + 1) n [] (Or.inl (by simp))

theorem parseUintLoop_digit (a d : Nat) (cs : Bytes) (hd : 48 ≤ d ∧ d ≤ 57)
    (h : a * 10 + (d - 48) < 2 ^ 64) :
    parseUintLoop a (d :: cs) = parseUintLoop (a * 10 + (d - 48)) cs := by
  have h1 : ¬ a ≥ (2 ^ 64 - 1) / 10 + 1 := by norm_num; omega
  have h2 : a * 10 % 2 ^ 64 = a * 10 := Nat.mod_eq_of_lt (by omega)
  have h3 : (a * 10 + (d - 48)) % 2 ^ 64 = a * 10 + (d - 48) := Nat.mod_eq_of_lt h
  simp only [parseUintLoop, hd, and_self, if_true, h1, if_false, h2, h3]
  rw [if_neg]
  omega

theorem parseUintLoop_decimalAux : ∀ (fuel n : Nat) (acc : Bytes), n < fuel → n < 2 ^ 64 →
    parseUintLoop 0 (decimalAux fuel n acc) = parseUintLoop n acc := by
  intro fuel
  induction fuel with
  | zero => intro n acc h; omega
  | succ k ih =>
    intro n acc hf hn
    unfold decimalAux
    split_ifs with h10
    · rw [parseUintLoop_digit 0 (48 + n) acc (by omega) (by omega)]
      congr 1
      omega
    · rw [ih (n / 10) _ (by omega) (by omega),
        parseUintLoop_digit (n / 10) (48 + n % 10) acc (by omega) (by omega)]
      congr 1
      omega

theorem parseUint_decimal (n : Nat) (h : n < 2 ^ 64) : parseUint (decimal n) = .ok n := by
  unfold parseUint
  rw [if_neg (decimal_ne_nil n)]
  unfold decimal
  rw [parseUintLoop_decimalAux (n + 1) n [] (by omega) h]
  rfl

theorem atoi_decimal (n : Nat) (h : n < 2 ^ 63) : atoi (decimal n) = (n : Int) := by
  have hne := decimal_ne_nil n
  have hd := decimal_digits n
  have hp := parseUint_decimal n (by omega)
  unfold atoi parseInt
  cases hs : decimal n with
  | nil => exact absurd hs hne
  | cons c cs =>
    rw [hs] at hd hp
    have hc := hd c (by simp)
    have h43 : ¬ (c = 43 ∨ c = 45) := by omega
    have h45 : ¬ c = 45 := by omega
    have h43b : ¬ c = 43 := by omega
    simp only [h43b, if_false, h45, decide_False, Bool.not_false, true_and, false_and, or_self]
    rw [hp]
    simp only []
    have hlt : ¬ (n ≥ 2 ^ 63) := by omega
    rw [if_neg hlt]
    simp

theorem toUint_natCast (n : Nat) (h : n < 2 ^ 64) : toUint (n : Int) = n := by
  unfold toUint
  have : ((n : Int) % 2 ^ 64) = (n : Int) := Int.emod_eq_of_lt (by omega) (by exact_mod_cast h)
  rw [this]
  simp

theorem parseType_sizes (t : Table) (f : Field) (b s0 s1 : Bytes) (hb : 40 ∉ b)
    (h0 : ∀ x ∈ s0, 48 ≤ x ∧ x ≤ 57) (h1 : ∀ x ∈ s1, 48 ≤ x ∧ x ≤ 57)
    (hf : f.TypeName = b ++ 40 :: (s0 ++ 44 :: (s1 ++ [41]))) :
    parseType t f = getType t { f with
      Typ := some { size := toUint (atoi s0), decimalSize := toUint (atoi s1), name := [] },
      TypeName := b } := by
  have hne : ¬ f.TypeName = [] := by rw [hf]; simp
  have hin : (40 : Nat) ∉ s0 ++ 44 :: (s1 ++ [41]) := by
    intro hmem
    simp only [List.mem_append, List.mem_cons, List.mem_singleton, List.not_mem_nil, or_false] at hmem
    rcases hmem with hmem | hmem | hmem | hmem
    · have := h0 _ hmem; omega
    · omega
    · have := h1 _ hmem; omega
    · omega
  have hsplit : split 40 f.TypeName = [b, s0 ++ 44 :: (s1 ++ [41])] := by
    rw [hf, split_append_sep _ hb, split_of_not_mem hin]
  have hascii : ∀ x ∈ s0 ++ 44 :: (s1 ++ [41]), x < 128 := by
    intro x hmem
    simp only [List.mem_append, List.mem_cons, List.mem_singleton, List.not_mem_nil, or_false] at hmem
    rcases hmem with hmem | hmem | hmem | hmem
    · have := h0 _ hmem; omega
    · omega
    · have := h1 _ hmem; omega
    · omega
  have hexp := explode_ascii _ (s0 ++ 44 :: (s1 ++ [41])).length hascii (le_refl _)
  have hfront : ((s0 ++ 44 :: (s1 ++ [41])).map (fun x => [x])).dropLast.flatten
      = s0 ++ 44 :: s1 := by
    have : s0 ++ 44 :: (s1 ++ [41]) = (s0 ++ 44 :: s1) ++ [41] := by simp
    rw [this, List.map_append, List.map_singleton, List.dropLast_concat, flatten_map_singleton]
  have h44 : (44 : Nat) ∉ s0 := fun hmem => by have := h0 _ hmem; omega
  have h44b : (44 : Nat) ∉ s1 := fun hmem => by have := h1 _ hmem; omega
  have hsizes : split 44 (s0 ++ 44 :: s1) = [s0, s1] := by
    rw [split_append_sep _ h44, split_of_not_mem h44b]
  have hnil : ¬ (s0 ++ 44 :: (s1 ++ [41])).map (fun x => [x]) = [] := by simp
  unfold parseType
  rw [if_neg hne, hsplit]
  simp only [hexp, hnil, if_false, hfront, hsizes]

theorem parseType_size (t : Table) (f : Field) (b s0 : Bytes) (hb : 40 ∉ b)
    (h0 : ∀ x ∈ s0, 48 ≤ x ∧ x ≤ 57)
    (hf : f.TypeName = b ++ 40 :: (s0 ++ [41])) :
    parseType t f = getType t { f with
      Typ := some { size := toUint (atoi s0), decimalSize := 0, name := [] },
      TypeName := b } := by
  have hne : ¬ f.TypeName = [] := by rw [hf]; simp
  have hin : (40 : Nat) ∉ s0 ++ [41] := by
    intro hmem
    simp only [List.mem_append, List.mem_cons, List.mem_singleton, List.not_mem_nil, or_false] at hmem
    rcases hmem with hmem | hmem
    · have := h0 _ hmem; omega
    · omega
  have hsplit : split 40 f.TypeName = [b, s0 ++ [41]] := by
    rw [hf, split_append_sep _ hb, split_of_not_mem hin]
  have hascii : ∀ x ∈ s0 ++ [41], x < 128 := by
    intro x hmem
    simp only [List.mem_append, List.mem_cons, List.mem_singleton, List.not_mem_nil, or_false] at hmem
    rcases hmem with hmem | hmem
    · have := h0 _ hmem; omega
    · omega
  have hexp := explode_ascii _ (s0 ++ [41]).length hascii (le_refl _)
  have hfront : ((s0 ++ [41]).map (fun x => [x])).dropLast.flatten = s0 := by
    rw [List.map_append, List.map_singleton, List.dropLast_concat, flatten_map_singleton]
  have h44 : (44 : Nat) ∉ s0 := fun hmem => by have := h0 _ hmem; omega
  have hsizes : split 44 s0 = [s0] := split_of_not_mem h44
  have hnil : ¬ (s0 ++ [41]).map (fun x => [x]) = [] := by simp
  unfold parseType
  rw [if_neg hne, hsplit]
  simp only [hexp, hnil, if_false, hfront, hsizes]

/-! ### Field lines -/

theorem split_joinWith (c : Nat) : ∀ (toks : List Bytes), toks ≠ [] → (∀ tok ∈ toks, c ∉ tok) →
    split c (joinWith [c] toks) = toks := by
  intro toks
  induction toks with
  | nil => intro h; exact absurd rfl h
  | cons a rest ih =>
    intro _ hall
    cases rest with
    | nil => simpa [joinWith] using split_of_not_mem (hall a (by simp))
    | cons b rest2 =>
      have ha : c ∉ a := hall a (by simp)
      have := ih (by simp) (fun tok htok => hall tok (by simp [htok]))
      simp only [joinWith, List.append_assoc, List.singleton_append]
      rw [split_append_sep _ ha, this]

theorem parseFieldLoop_modifiers : ∀ (ms : List Modifier) (f : Field),
    parseFieldLoop f (ms.map Modifier.tokens).flatten = some { f with
      Unsigned := f.Unsigned || decide (Modifier.unsigned ∈ ms),
      NotNull := f.NotNull || decide (Modifier.notNull ∈ ms),
      AutoIncrement := f.AutoIncrement || decide (Modifier.autoIncrement ∈ ms) } := by
  intro ms
  induction ms with
  | nil => intro f; cases f; simp [parseFieldLoop]
  | cons m ms ih =>
    intro f
    cases m
    · simp only [List.map_cons, List.flatten_cons, Modifier.tokens, List.cons_append,
        List.nil_append]
      rw [show parseFieldLoop f (txt "unsigned" :: (ms.map Modifier.tokens).flatten)
        = parseFieldLoop { f with Unsigned := true } (ms.map Modifier.tokens).flatten from by
          rw [parseFieldLoop.eq_def]; rfl,
        ih]
      cases f; simp
    · simp only [List.map_cons, List.flatten_cons, Modifier.tokens, List.cons_append,
        List.nil_append]
      rw [show parseFieldLoop f (txt "NOT" :: txt "NULL" :: (ms.map Modifier.tokens).flatten)
        = parseFieldLoop { f with NotNull := true } (ms.map Modifier.tokens).flatten from rfl,
        ih]
      cases f; simp
    · simp only [List.map_cons, List.flatten_cons, Modifier.tokens, List.cons_append,
        List.nil_append]
      rw [show parseFieldLoop f (txt "AUTO_INCREMENT" :: (ms.map Modifier.tokens).flatten)
        = parseFieldLoop { f with AutoIncrement := true } (ms.map Modifier.tokens).flatten
        from by rw [parseFieldLoop.eq_def]; rfl, ih]
      cases f; simp

theorem parseType_plain (t : Table) (f : Field) (hne : f.TypeName ≠ []) (h : 40 ∉ f.TypeName) :
    parseType t f = getType t { f with
      Typ := some { size := 0, decimalSize := 0, name := [] }, TypeName := f.TypeName } := by
  unfold parseType
  rw [if_neg hne, split_of_not_mem h]

theorem modifier_tokens_no_blank : ∀ (ms : List Modifier),
    ∀ tok ∈ (ms.map Modifier.tokens).flatten, 32 ∉ tok := by
  intro ms tok htok
  simp only [List.mem_flatten, List.mem_map] at htok
  obtain ⟨l, ⟨m, _, rfl⟩, hl⟩ := htok
  cases m <;> simp only [Modifier.tokens, List.mem_cons, List.mem_singleton, List.not_mem_nil,
    or_false] at hl
  · subst hl; decide
  · rcases hl with hl | hl <;> subst hl <;> decide
  · subst hl; decide

/-! ### Key lines and tags -/

theorem trimLeftByte_of_head_ne (q : Nat) (s : Bytes) (h : s.head? ≠ some q) :
    trimLeftByte q s = s := by
  cases s with
  | nil => rfl
  | cons b bs =>
    have : ¬ b = q := fun e => h (by simp [e])
    simp [trimLeftByte, this]

/-- Quotes around a text without that quote are removed by `bytes.Trim`. -/
theorem trimByte_quoted (q : Nat) (s : Bytes) (h : q ∉ s) : trimByte q (q :: (s ++ [q])) = s := by
  unfold trimByte trimRightByte
  have h1 : trimLeftByte q (q :: (s ++ [q])) = trimLeftByte q (s ++ [q]) := by
    simp [trimLeftByte]
  rw [h1]
  cases s with
  | nil => simp [trimLeftByte]
  | cons b bs =>
    have hb : ¬ b = q := fun e => h (by simp [e])
    have h2 : trimLeftByte q (b :: bs ++ [q]) = b :: bs ++ [q] := by
      simp [trimLeftByte, hb]
    rw [h2]
    have h3 : (b :: bs ++ [q]).reverse = q :: (b :: bs).reverse := by simp
    rw [h3]
    have h4 : trimLeftByte q (q :: (b :: bs).reverse) = trimLeftByte q (b :: bs).reverse := by
      simp [trimLeftByte]
    rw [h4, trimLeftByte_of_head_ne q _ ?_]
    · simp
    · intro e
      have : q ∈ (b :: bs).reverse := List.mem_of_mem_head? e
      exact h (by simpa [or_comm] using this)

theorem keyName_quoted (c : Bytes) (h : 96 ∉ c) :
    keyName (40 :: 96 :: (c ++ [96, 41])) = c := by
  have e1 : trimSpace (40 :: 96 :: (c ++ [96, 41])) = 40 :: 96 :: (c ++ [96, 41]) := by
    have hr : (40 :: 96 :: (c ++ [96, 41])).reverse = 41 :: 96 :: (c.reverse ++ [96, 40]) := by
      simp
    simp only [trimSpace]
    rw [if_neg (by decide), hr]
    simp only [trimSpaceEnd]
    rw [if_neg (by decide), if_neg (by decide), if_neg (by decide)]
  have e2 : trimSuffixByte 41 (96 :: (c ++ [96, 41])) = 96 :: (c ++ [96]) := by
    unfold trimSuffixByte
    have hr : (96 :: (c ++ [96, 41])).reverse = 41 :: (96 :: (c.reverse ++ [96])) := by simp
    rw [hr]
    simp [trimPrefixByte]
  have e3 : trimSuffixByte 44 (96 :: (c ++ [96])) = 96 :: (c ++ [96]) := by
    unfold trimSuffixByte
    have hr : (96 :: (c ++ [96])).reverse = 96 :: (c.reverse ++ [96]) := by simp
    rw [hr]
    simp [trimPrefixByte]
  unfold keyName
  rw [e1]
  simp only [trimPrefixByte, if_true]
  rw [e2, e3, trimByte_quoted 96 c h]

theorem indexTags_have_colon (r : Bytes) (idx : Index) : ∀ (vs : List Bytes) (k : Nat),
    ∀ x ∈ indexTags r idx k vs, 58 ∈ x := by
  intro vs
  induction vs with
  | nil => intro k x hx; simp [indexTags] at hx
  | cons v vs ih =>
    intro k x hx
    unfold indexTags at hx
    split_ifs at hx
    · simp only [List.mem_cons] at hx
      rcases hx with hx | hx
      · subst hx
        simp [show txt ":" = [58] from rfl]
      · exact ih _ x hx
    · exact ih _ x hx

theorem primaryKey_mem_gormTags (t : Table) (f : Field) :
    txt "primaryKey" ∈ gormTags t f ↔ f.RawName ∈ t.PrimaryKeys := by
  have hp : txt "primaryKey" = 112 :: txt "rimaryKey" := rfl
  have hc : ∀ x : Bytes, txt "column:" ++ x = 99 :: (txt "olumn:" ++ x) := fun _ => rfl
  have hd : ∀ x : Bytes, txt "default:" ++ x = 100 :: (txt "efault:" ++ x) := fun _ => rfl
  have hcolon : (58 : Nat) ∉ txt "primaryKey" := by decide
  unfold gormTags
  simp only [List.mem_append, List.mem_singleton, List.mem_map, List.mem_filter,
    List.mem_flatten]
  constructor
  · rintro (((h | h) | h) | h)
    · rw [hp, List.append_assoc, List.append_assoc, hc] at h
      simp at h
    · split_ifs at h
      · simp only [List.mem_singleton] at h
        rw [hp, hd] at h
        simp at h
      · simp at h
    · obtain ⟨v, ⟨hv, he⟩, _⟩ := h
      have : v = f.RawName := by simpa using he
      rw [← this]; exact hv
    · obtain ⟨l, ⟨index, _, rfl⟩, hl⟩ := h
      exact absurd (indexTags_have_colon _ _ _ _ _ hl) hcolon
  · intro h
    exact Or.inl (Or.inr ⟨f.RawName, ⟨h, by simp⟩, trivial⟩)

theorem buildTag_gorm (t : Table) (f : Field) (h : t.UseGormTag = true) :
    buildTag t f = some (txt "`"
      ++ (if t.UseJsonTag then txt "json:\"" ++ f.RawName ++ txt "\" " else [])
      ++ txt "gorm:\"" ++ joinWith (txt ";") (gormTags t f) ++ txt "\"" ++ txt "`") := by
  unfold buildTag
  cases hj : t.UseJsonTag
  · simp [h, joinWith]
  · simp [h, joinWith, show txt "\" " = txt "\"" ++ txt " " from rfl]

theorem parseKey_single (t : Table) (c : Bytes) (hs : 32 ∉ c) (hq : 96 ∉ c) :
    parseKey t (txt "PRIMARY KEY (`" ++ c ++ txt "`)")
      = { t with PrimaryKeys := t.PrimaryKeys ++ [c] } := by
  have e : txt "PRIMARY KEY (`" ++ c ++ txt "`)"
      = txt "PRIMARY" ++ 32 :: (txt "KEY" ++ 32 :: (40 :: 96 :: (c ++ [96, 41]))) := by
    simp [txt]
  have h3 : (32 : Nat) ∉ 40 :: 96 :: (c ++ [96, 41]) := by
    simp only [List.mem_cons, List.mem_append, List.not_mem_nil, or_false]
    rintro (h | h | h | h | h)
    · omega
    · omega
    · exact hs h
    · omega
    · omega
  unfold parseKey
  rw [e, split_append_sep _ (by decide), split_append_sep _ (by decide), split_of_not_mem h3]
  simp only [List.map_cons, List.map_nil, keyName_quoted c hq]

theorem trimByte_comma_line (p : Nat) (s : Bytes) (hp : p ≠ 44) :
    trimByte 44 (p :: (s ++ [41])) = p :: (s ++ [41]) := by
  unfold trimByte trimRightByte
  have h1 : trimLeftByte 44 (p :: (s ++ [41])) = p :: (s ++ [41]) := by
    simp [trimLeftByte, hp]
  rw [h1]
  have hr : (p :: (s ++ [41])).reverse = 41 :: (s.reverse ++ [p]) := by simp
  rw [hr]
  have h2 : trimLeftByte 44 (41 :: (s.reverse ++ [p])) = 41 :: (s.reverse ++ [p]) := by
    simp [trimLeftByte]
  rw [h2]
  simp

/-! ### Index lines -/

theorem inner_wrapped (a b : Nat) (s : Bytes) : inner (a :: (s ++ [b])) = some s := by
  unfold inner
  have hl : ¬ (a :: (s ++ [b])).length < 2 := by simp
  rw [if_neg hl]
  simp

theorem indexFields_quoted : ∀ fs : List Bytes, indexFields (fs.map quoted) = some fs := by
  intro fs
  induction fs with
  | nil => rfl
  | cons f fs ih =>
    have hq : inner (quoted f) = some f := by
      have : quoted f = 96 :: (f ++ [96]) := by simp [quoted, txt]
      rw [this, inner_wrapped]
    simp only [List.map_cons, indexFields, hq, ih, Option.bind_eq_bind, Option.some_bind,
      Option.pure_def]

theorem columnList_fields (fs : List Bytes) (hfs : fs ≠ []) (hc : ∀ f ∈ fs, 44 ∉ f) :
    (inner (columnList fs)).bind (fun fields => indexFields (split 44 fields)) = some fs := by
  have e : columnList fs = 40 :: (joinWith [44] (fs.map quoted) ++ [41]) := by
    simp [columnList, txt]
  have hq : ∀ tok ∈ fs.map quoted, 44 ∉ tok := by
    intro tok htok
    simp only [List.mem_map] at htok
    obtain ⟨f, hf, rfl⟩ := htok
    have := hc f hf
    simp only [quoted, show txt "`" = [96] from rfl, List.mem_append, List.mem_singleton,
      List.mem_cons, List.not_mem_nil, or_false]
    rintro ((h | h) | h)
    · omega
    · exact this h
    · omega
  rw [e, inner_wrapped]
  simp only [Option.some_bind]
  rw [split_joinWith 44 _ (by simpa using hfs) hq, indexFields_quoted]

theorem indexComment_tokens (comment : Option Bytes) (h : ∀ x ∈ comment, x ≠ txt "COMMENT") :
    indexComment [] (commentTokens comment) = some (comment.getD []) := by
  cases comment with
  | none => rfl
  | some x =>
    have hx : ¬ x = txt "COMMENT" := h x rfl
    simp only [commentTokens, indexComment, if_true, hx, if_false, Option.getD_some]

theorem columnList_no_blank (fs : List Bytes) (h : ∀ f ∈ fs, 32 ∉ f) : 32 ∉ columnList fs := by
  have hj : ∀ l : List Bytes, (∀ f ∈ l, 32 ∉ f) → 32 ∉ joinWith [44] (l.map quoted) := by
    intro l
    induction l with
    | nil => intro _; simp [joinWith]
    | cons a rest ih =>
      intro hl
      have ha : 32 ∉ quoted a := by
        have := hl a (by simp)
        simp only [quoted, show txt "`" = [96] from rfl, List.mem_append, List.mem_singleton,
          List.mem_cons, List.not_mem_nil, or_false]
        rintro ((h | h) | h)
        · omega
        · exact this h
        · omega
      cases rest with
      | nil => simpa [joinWith] using ha
      | cons b rest2 =>
        have := ih (fun f hf => hl f (by simp [hf]))
        simp only [List.map_cons, joinWith, List.mem_append, List.mem_singleton] at this ⊢
        rintro ((h | h) | h)
        · exact ha h
        · omega
        · exact this h
  have := hj fs h
  simp only [columnList, show txt "(" = [40] from rfl, show txt ")" = [41] from rfl,
    show txt "," = [44] from rfl, List.mem_append, List.mem_singleton]
  rintro ((h | h) | h)
  · omega
  · exact this h
  · omega

theorem modifyAt_getElem? {α : Type} (g : α → α) : ∀ (l : List α) (i j : Nat),
    (modifyAt g i l)[j]? = if j = i then (l[j]?).map g else l[j]? := by
  intro l
  induction l with
  | nil => intro i j; cases i <;> simp [modifyAt]
  | cons x xs ih =>
    intro i j
    cases i with
    | zero =>
      cases j with
      | zero => simp [modifyAt]
      | succ j => simp [modifyAt]
    | succ i =>
      cases j with
      | zero => simp [modifyAt]
      | succ j => simp [modifyAt, ih]

/-- Attaching an index changes the fields only. -/
theorem attachIndex_frame (idx : Index) : ∀ (vs : List Bytes) (t : Table),
    attachIndex idx t vs = { t with Fields := (attachIndex idx t vs).Fields } := by
  intro vs
  induction vs with
  | nil => intro t; rfl
  | cons v vs ih =>
    intro t
    unfold attachIndex
    cases mapGet t.nameFiledMap v with
    | none => exact ih t
    | some j => simp only []; rw [ih]

theorem attachIndex_nameFiledMap (idx : Index) (vs : List Bytes) (t : Table) :
    (attachIndex idx t vs).nameFiledMap = t.nameFiledMap := by
  rw [attachIndex_frame]

/-- The fields after an index has been attached: the field at position `j` gains the index
once for every listed name that the map sends to `j`. -/
theorem attachIndex_fields (idx : Index) : ∀ (vs : List Bytes) (t : Table) (j : Nat),
    (attachIndex idx t vs).Fields[j]? = (t.Fields[j]?).map (fun g =>
      { g with indexes := g.indexes
          ++ List.replicate (vs.countP (fun v => mapGet t.nameFiledMap v = some j)) idx }) := by
  intro vs
  induction vs with
  | nil =>
    intro t j
    simp only [attachIndex, List.countP_nil, List.replicate_zero, List.append_nil]
    cases t.Fields[j]? <;> simp
  | cons v vs ih =>
    intro t j
    unfold attachIndex
    cases hm : mapGet t.nameFiledMap v with
    | none =>
      simp only []
      rw [ih, List.countP_cons]
      simp [hm]
    | some i =>
      simp only []
      rw [ih, List.countP_cons]
      simp only [modifyAt_getElem?, hm]
      by_cases hji : j = i
      · subst hji
        cases t.Fields[j]? with
        | none => simp
        | some g =>
          simp only [if_true, Option.map_some', decide_True, List.replicate_succ,
            List.append_assoc, List.singleton_append, Option.some.injEq]
      · have : ¬ i = j := fun e => hji e.symm
        simp [hji, this]

theorem index_tokens_no_blank (name : Bytes) (fs : List Bytes) (comment : Option Bytes)
    (hname : 32 ∉ name) (hcols : ∀ f ∈ fs, 32 ∉ f ∧ 44 ∉ f)
    (hcomment : ∀ x ∈ comment, 32 ∉ x ∧ x ≠ txt "COMMENT") :
    ∀ tok ∈ name :: columnList fs :: commentTokens comment, 32 ∉ tok := by
  intro tok htok
  simp only [List.mem_cons] at htok
  rcases htok with htok | htok | htok
  · subst htok; exact hname
  · subst htok; exact columnList_no_blank fs (fun f hf => (hcols f hf).1)
  · cases comment with
    | none => simp [commentTokens] at htok
    | some x =>
      simp only [commentTokens, List.mem_cons, List.mem_singleton, List.not_mem_nil,
        or_false] at htok
      rcases htok with htok | htok
      · subst htok; decide
      · subst htok; exact (hcomment tok rfl).1

theorem inner_columnList (fs : List Bytes) :
    inner (columnList fs) = some (joinWith [44] (fs.map quoted)) := by
  have e : columnList fs = 40 :: (joinWith [44] (fs.map quoted) ++ [41]) := by
    simp [columnList, txt]
  rw [e, inner_wrapped]

theorem indexFields_columns (fs : List Bytes) (hfs : fs ≠ []) (hc : ∀ f ∈ fs, 44 ∉ f) :
    indexFields (split 44 (joinWith [44] (fs.map quoted))) = some fs := by
  have := columnList_fields fs hfs hc
  rw [inner_columnList] at this
  simpa using this

theorem parseUniqueIndex_line (H : Helpers) (t : Table) (name : Bytes) (fs : List Bytes)
    (comment : Option Bytes) (hname : 32 ∉ name) (hfs : fs ≠ [])
    (hcols : ∀ f ∈ fs, 32 ∉ f ∧ 44 ∉ f)
    (hcomment : ∀ x ∈ comment, 32 ∉ x ∧ x ≠ txt "COMMENT") :
    parseUniqueIndex H t (uniqueIndexLine name fs comment)
      = some (attachIndex
          { Fields := fs, Typ := Unique, RawName := H.trim name, Comment := comment.getD [] }
          t fs) := by
  have hs : split 32 (uniqueIndexLine name fs comment)
      = txt "UNIQUE" :: txt "KEY" :: name :: columnList fs :: commentTokens comment := by
    unfold uniqueIndexLine
    rw [show txt " " = [32] from rfl]
    apply split_joinWith 32 _ (by simp)
    intro tok htok
    simp only [List.cons_append, List.nil_append, List.mem_cons] at htok
    rcases htok with htok | htok | htok
    · subst htok; decide
    · subst htok; decide
    · exact index_tokens_no_blank name fs comment hname hcols hcomment tok
        (by simpa [List.mem_cons] using htok)
  unfold parseUniqueIndex
  rw [hs]
  simp only [inner_columnList, indexFields_columns fs hfs (fun f hf => (hcols f hf).2),
    indexComment_tokens comment (fun x hx => (hcomment x hx).2), Option.bind_eq_bind,
    Option.some_bind, Option.pure_def]

theorem parseIndex_line (H : Helpers) (t : Table) (kw name : Bytes) (fs : List Bytes)
    (comment : Option Bytes) (hkw : 32 ∉ kw) (hname : 32 ∉ name) (hfs : fs ≠ [])
    (hcols : ∀ f ∈ fs, 32 ∉ f ∧ 44 ∉ f)
    (hcomment : ∀ x ∈ comment, 32 ∉ x ∧ x ≠ txt "COMMENT") :
    parseIndex H t (indexLine kw name fs comment)
      = some (attachIndex
          { Fields := fs, Typ := Normal, RawName := H.trim name, Comment := comment.getD [] }
          t fs) := by
  have hs : split 32 (indexLine kw name fs comment)
      = kw :: name :: columnList fs :: commentTokens comment := by
    unfold indexLine
    rw [show txt " " = [32] from rfl]
    apply split_joinWith 32 _ (by simp)
    intro tok htok
    simp only [List.cons_append, List.nil_append, List.mem_cons] at htok
    rcases htok with htok | htok
    · subst htok; exact hkw
    · exact index_tokens_no_blank name fs comment hname hcols hcomment tok
        (by simpa [List.mem_cons] using htok)
  unfold parseIndex
  rw [hs]
  simp only [inner_columnList, indexFields_columns fs hfs (fun f hf => (hcols f hf).2),
    indexComment_tokens comment (fun x hx => (hcomment x hx).2), Option.bind_eq_bind,
    Option.some_bind, Option.pure_def]

/-! ### The loop of `Parse` -/

theorem getType_indexes (t : Table) (f : Field) (r : Table × Field)
    (h : getType t f = some r) : r.1.Indexes = t.Indexes := by
  cases hty : f.Typ with
  | some tp =>
    rw [getType_eq t f tp hty] at h
    injection h with h
    subst h
    show (withTimeImport t f.TypeName).Indexes = t.Indexes
    unfold withTimeImport
    split_ifs <;> rfl
  | none =>
    simp only [getType, setTypeName, hty, Option.bind_eq_bind, Option.none_bind] at h
    split_ifs at h
    all_goals (injection h with h; subst h; rfl)

theorem parseType_indexes (t : Table) (f : Field) (r : Table × Field)
    (h : parseType t f = some r) : r.1.Indexes = t.Indexes := by
  unfold parseType at h
  split_ifs at h with h0
  · injection h with h; subst h; rfl
  · split at h
    · cases h
    · exact getType_indexes _ _ _ h
    · simp only [] at h
      split_ifs at h
      split at h
      · cases h
      · exact getType_indexes _ _ _ h
      · exact getType_indexes _ _ _ h

theorem parseField_indexes (H : Helpers) (t t' : Table) (line : Bytes)
    (h : parseField H t line = some t') : t'.Indexes = t.Indexes := by
  unfold parseField at h
  split at h
  · simp only [Option.bind_eq_bind, Option.bind_eq_some] at h
    obtain ⟨f1, _, r, hr, h⟩ := h
    obtain ⟨t1, f2⟩ := r
    simp only [Option.pure_def, Option.some.injEq] at h
    subst h
    exact parseType_indexes _ _ _ hr
  · injection h with h; subst h; rfl

theorem parseComment_indexes (t : Table) (line : Bytes) :
    (parseComment t line).Indexes = t.Indexes := by
  unfold parseComment
  split
  · rfl
  · split
    · rfl
    · split <;> rfl

theorem parseKey_indexes (t : Table) (line : Bytes) : (parseKey t line).Indexes = t.Indexes := by
  unfold parseKey
  split <;> rfl

theorem attachIndex_indexes (idx : Index) (vs : List Bytes) (t : Table) :
    (attachIndex idx t vs).Indexes = t.Indexes := by
  rw [attachIndex_frame]

theorem parseIndex_indexes (H : Helpers) (t t' : Table) (line : Bytes)
    (h : parseIndex H t line = some t') : t'.Indexes = t.Indexes := by
  unfold parseIndex at h
  split at h
  · split at h
    · cases h
    · simp only [Option.bind_eq_bind, Option.bind_eq_some, Option.pure_def,
        Option.some.injEq] at h
      obtain ⟨_, _, _, _, _, _, h⟩ := h
      subst h
      exact attachIndex_indexes _ _ _
  · injection h with h; subst h; rfl

theorem parseUniqueIndex_indexes (H : Helpers) (t t' : Table) (line : Bytes)
    (h : parseUniqueIndex H t line = some t') : t'.Indexes = t.Indexes := by
  unfold parseUniqueIndex at h
  split at h
  · split at h
    · cases h
    · simp only [Option.bind_eq_bind, Option.bind_eq_some, Option.pure_def,
        Option.some.injEq] at h
      obtain ⟨_, _, _, _, _, _, h⟩ := h
      subst h
      exact attachIndex_indexes _ _ _
  · injection h with h; subst h; rfl

/-- What one step of the loop of `Parse` can do. -/
theorem parseLine_cases (H : Helpers) (st st' : Table × Bool) (raw : Bytes)
    (h : parseLine H st raw = some st') :
    st'.1 = st.1
    ∨ (∃ c2, st'.1 = { st.1 with RawName := H.trim c2, Name := H.title (H.trim c2) })
    ∨ (∃ l, st'.1 = parseComment st.1 l)
    ∨ (∃ l, parseField H st.1 l = some st'.1)
    ∨ (∃ l, st'.1 = parseKey st.1 l)
    ∨ (∃ l, parseIndex H st.1 l = some st'.1)
    ∨ (∃ l, parseUniqueIndex H st.1 l = some st'.1) := by
  unfold parseLine at h
  generalize H.trimLine raw = line at h
  simp only [] at h
  by_cases h1 : line = []
  · rw [if_pos h1] at h; injection h with h; subst h; exact Or.inl rfl
  rw [if_neg h1] at h
  by_cases h2 : hasPrefix line (txt "/*") = true
  · rw [if_pos h2] at h; injection h with h; subst h; exact Or.inl rfl
  rw [if_neg h2] at h
  by_cases h3 : hasPrefix line (txt "*/") = true
  · rw [if_pos h3] at h; injection h with h; subst h; exact Or.inl rfl
  rw [if_neg h3] at h
  by_cases h4 : (hasPrefix line (txt "--") || st.2 || hasPrefix line (txt "SET")
      || hasPrefix line (txt "DROP")) = true
  · rw [if_pos h4] at h; injection h with h; subst h; exact Or.inl rfl
  rw [if_neg h4] at h
  by_cases h5 : hasPrefix line (txt "CREATE TABLE") = true
  · rw [if_pos h5] at h
    split at h
    · injection h with h; subst h; exact Or.inr (Or.inl ⟨_, rfl⟩)
    · cases h
  rw [if_neg h5] at h
  split at h
  · cases h
  rename_i c cs _
  by_cases c1 : c = 41
  · rw [if_pos c1] at h; injection h with h; subst h
    exact Or.inr (Or.inr (Or.inl ⟨_, rfl⟩))
  rw [if_neg c1] at h
  by_cases c2 : c = 96
  · rw [if_pos c2] at h
    rw [Option.map_eq_some'] at h
    obtain ⟨t1, ht1, h⟩ := h
    subst h
    exact Or.inr (Or.inr (Or.inr (Or.inl ⟨_, ht1⟩)))
  rw [if_neg c2] at h
  by_cases c3 : c = 80
  · rw [if_pos c3] at h; injection h with h; subst h
    exact Or.inr (Or.inr (Or.inr (Or.inr (Or.inl ⟨_, rfl⟩))))
  rw [if_neg c3] at h
  by_cases c4 : c = 73 ∨ c = 75
  · rw [if_pos c4] at h
    rw [Option.map_eq_some'] at h
    obtain ⟨t1, ht1, h⟩ := h
    subst h
    exact Or.inr (Or.inr (Or.inr (Or.inr (Or.inr (Or.inl ⟨_, ht1⟩)))))
  rw [if_neg c4] at h
  by_cases c5 : c = 85
  · rw [if_pos c5] at h
    rw [Option.map_eq_some'] at h
    obtain ⟨t1, ht1, h⟩ := h
    subst h
    exact Or.inr (Or.inr (Or.inr (Or.inr (Or.inr (Or.inr ⟨_, ht1⟩)))))
  rw [if_neg c5] at h
  injection h with h; subst h; exact Or.inl rfl

theorem parseLine_indexes (H : Helpers) (st st' : Table × Bool) (raw : Bytes)
    (h : parseLine H st raw = some st') : st'.1.Indexes = st.1.Indexes := by
  rcases parseLine_cases H st st' raw h with h | ⟨_, h⟩ | ⟨_, h⟩ | ⟨_, h⟩ | ⟨_, h⟩ | ⟨_, h⟩ | ⟨_, h⟩
  · rw [h]
  · rw [h]
  · rw [h]; exact parseComment_indexes _ _
  · exact parseField_indexes H _ _ _ h
  · rw [h]; exact parseKey_indexes _ _
  · exact parseIndex_indexes H _ _ _ h
  · exact parseUniqueIndex_indexes H _ _ _ h

theorem parseLines_indexes (H : Helpers) : ∀ (ls : List Bytes) (st st' : Table × Bool),
    parseLines H st ls = some st' → st'.1.Indexes = st.1.Indexes := by
  intro ls
  induction ls with
  | nil => intro st st' h; simp only [parseLines, Option.some.injEq] at h; subst h; rfl
  | cons l ls ih =>
    intro st st' h
    unfold parseLines at h
    split at h
    · cases h
    · rename_i st1 h1
      rw [ih _ _ h, parseLine_indexes H _ _ _ h1]

theorem Parse_eq (H : Helpers) (t : Table) (data : Bytes) :
    Parse H t data = (parseLines H (t, false) (readLines data)).map Prod.fst := by
  unfold Parse
  split_ifs with h
  · subst h; rfl
  · rfl

theorem hasPrefix_pair (s : Bytes) (a b : Nat) :
    hasPrefix s [a, b] = true ↔ ∃ r, s = a :: b :: r := by
  cases s with
  | nil => simp [hasPrefix, List.isPrefixOf]
  | cons x xs =>
    cases xs with
    | nil => simp [hasPrefix, List.isPrefixOf]
    | cons y ys =>
      simp only [hasPrefix, List.isPrefixOf, Bool.and_true, Bool.and_eq_true, beq_iff_eq,
        List.cons.injEq, exists_and_left, exists_eq', and_true]
      constructor
      · rintro ⟨h1, h2⟩; exact ⟨h1.symm, h2.symm⟩
      · rintro ⟨h1, h2⟩; exact ⟨h1.symm, h2.symm⟩

theorem parseLine_open (H : Helpers) (st : Table × Bool) (l : Bytes)
    (h : hasPrefix (H.trimLine l) (txt "/*") = true) : parseLine H st l = some (st.1, true) := by
  unfold parseLine
  have hne : ¬ H.trimLine l = [] := by
    obtain ⟨r, hr⟩ := (hasPrefix_pair _ 47 42).mp h
    rw [hr]; simp
  simp only []
  rw [if_neg hne, if_pos h]

theorem parseLine_in_comment (H : Helpers) (t : Table) (l : Bytes)
    (h : ¬ hasPrefix (H.trimLine l) (txt "*/") = true) :
    parseLine H (t, true) l = some (t, true) := by
  unfold parseLine
  simp only []
  by_cases h1 : H.trimLine l = []
  · rw [if_pos h1]
  rw [if_neg h1]
  by_cases h2 : hasPrefix (H.trimLine l) (txt "/*") = true
  · rw [if_pos h2]
  rw [if_neg h2, if_neg h, if_pos (by simp)]

theorem trimByte_ends (q a b : Nat) (s : Bytes) (ha : a ≠ q) (hb : b ≠ q) :
    trimByte q (a :: (s ++ [b])) = a :: (s ++ [b]) := by
  unfold trimByte trimRightByte
  have h1 : trimLeftByte q (a :: (s ++ [b])) = a :: (s ++ [b]) := by
    simp [trimLeftByte, ha]
  rw [h1]
  have hr : (a :: (s ++ [b])).reverse = b :: (s.reverse ++ [a]) := by simp
  rw [hr]
  have h2 : trimLeftByte q (b :: (s.reverse ++ [a])) = b :: (s.reverse ++ [a]) := by
    simp [trimLeftByte, hb]
  rw [h2]
  simp

theorem trimByte_last (q a b : Nat) (s : Bytes) (ha : a ≠ q) (hb : b ≠ q) :
    trimByte q (a :: (s ++ [b, q])) = a :: (s ++ [b]) := by
  unfold trimByte trimRightByte
  have h1 : trimLeftByte q (a :: (s ++ [b, q])) = a :: (s ++ [b, q]) := by
    simp [trimLeftByte, ha]
  rw [h1]
  have hr : (a :: (s ++ [b, q])).reverse = q :: b :: (s.reverse ++ [a]) := by simp
  rw [hr]
  have h2 : trimLeftByte q (q :: b :: (s.reverse ++ [a])) = b :: (s.reverse ++ [a]) := by
    simp [trimLeftByte, hb]
  rw [h2]
  simp

theorem dropToFirst_trailer (r : Bytes) :
    dropToFirst (txt "COMMENT") (txt ") ENGINE=InnoDB COMMENT='" ++ r)
      = some (txt "COMMENT='" ++ r) := by
  rfl

theorem parseComment_trailer (t : Table) (c : Bytes) (h32 : 32 ∉ c) (h61 : 61 ∉ c)
    (h39 : 39 ∉ c) :
    parseComment t (trailerLine c) = { t with Comment := c } := by
  have e1 : trailerLine c = txt ") ENGINE=InnoDB COMMENT='" ++ (c ++ [39, 59]) := by
    simp [trailerLine, txt]
  have e2 : txt "COMMENT='" ++ (c ++ [39, 59]) = txt "COMMENT" ++ 61 :: (39 :: (c ++ [39, 59])) := by
    simp [txt]
  have hb : (32 : Nat) ∉ txt "COMMENT" ++ 61 :: (39 :: (c ++ [39, 59])) := by
    simp only [List.mem_append, List.mem_cons, List.not_mem_nil, or_false]
    rintro (h | h | h | h | h | h)
    · revert h; decide
    · omega
    · omega
    · exact h32 h
    · omega
    · omega
  have he : (61 : Nat) ∉ 39 :: (c ++ [39, 59]) := by
    simp only [List.mem_append, List.mem_cons, List.not_mem_nil, or_false]
    rintro (h | h | h | h)
    · omega
    · exact h61 h
    · omega
    · omega
  have hs : 39 :: (c ++ [39, 59]) = 39 :: ((c ++ [39]) ++ [59]) := by simp
  unfold parseComment
  rw [e1, dropToFirst_trailer, e2]
  simp only []
  rw [split_of_not_mem hb]
  simp only []
  rw [split_append_sep _ (by decide), split_of_not_mem he]
  simp only []
  have hq : trimByte 59 (39 :: (c ++ [39, 59])) = 39 :: (c ++ [39]) :=
    trimByte_last 59 39 39 c (by decide) (by decide)
  rw [hq, trimByte_quoted 39 c h39]

/-- What `GenCode` returns when it does not panic: the tree it has built, formatted. -/
theorem GenCode_some (fmt : Formatter) (t : Table) (out : Output) (hn : t.Name ≠ [])
    (h : GenCode fmt t = some out) :
    ∃ members paths receiver,
      genMembers t t.Fields false = some (members, paths)
      ∧ (explode t.RawName.length t.RawName).head? = some receiver
      ∧ out = formatSource fmt
          { PkgName := t.PkgName, Imports := paths,
            Doc := if t.Comment = [] then none
                   else some (toComment (t.Name ++ txt " " ++ t.Comment)),
            TypeName := t.Name, Members := members, Receiver := receiver,
            TableName := txt "\"" ++ t.RawName ++ txt "\"" } := by
  unfold GenCode at h
  rw [if_neg hn] at h
  simp only [Option.bind_eq_bind, Option.bind_eq_some, Option.pure_def, Option.some.injEq] at h
  obtain ⟨⟨members, paths⟩, hm, receiver, hr, hf⟩ := h
  exact ⟨members, paths, receiver, hm, hr, hf.symm⟩

/-- What `GenCode` returns when it returns source text. -/
theorem GenCode_source (fmt : Formatter) (t : Table) (file : File)
    (h : GenCode fmt t = some (Output.source file)) :
    t.Name ≠ [] ∧ fmt file = true ∧ ∃ members paths receiver,
      genMembers t t.Fields false = some (members, paths)
      ∧ (explode t.RawName.length t.RawName).head? = some receiver
      ∧ file = { PkgName := t.PkgName, Imports := paths,
                 Doc := if t.Comment = [] then none
                        else some (toComment (t.Name ++ txt " " ++ t.Comment)),
                 TypeName := t.Name, Members := members, Receiver := receiver,
                 TableName := txt "\"" ++ t.RawName ++ txt "\"" } := by
  have hn : t.Name ≠ [] := by
    intro hn
    unfold GenCode at h
    rw [if_pos hn] at h
    injection h with h
    cases h
  obtain ⟨members, paths, receiver, hm, hr, hf⟩ := GenCode_some fmt t _ hn h
  unfold formatSource at hf
  by_cases ha : fmt
      { PkgName := t.PkgName, Imports := paths,
        Doc := if t.Comment = [] then none
               else some (toComment (t.Name ++ txt " " ++ t.Comment)),
        TypeName := t.Name, Members := members, Receiver := receiver,
        TableName := txt "\"" ++ t.RawName ++ txt "\"" } = true
  · rw [if_pos ha] at hf
    injection hf with hf
    subst hf
    exact ⟨hn, ha, members, paths, receiver, hm, hr, rfl⟩
  · rw [if_neg ha] at hf
    cases hf

theorem indexTags_head (r : Bytes) (idx : Index) : ∀ (vs : List Bytes) (k : Nat),
    ∀ x ∈ indexTags r idx k vs, x.head? ≠ some 100 := by
  intro vs
  induction vs with
  | nil => intro k x hx; simp [indexTags] at hx
  | cons v vs ih =>
    intro k x hx
    unfold indexTags at hx
    split_ifs at hx
    · simp only [List.mem_cons] at hx
      rcases hx with hx | hx
      · subst hx
        unfold IndexType.Name
        split_ifs
        · rw [show txt "index" = 105 :: txt "ndex" from rfl]; simp
        · rw [show txt "uniqueIndex" = 117 :: txt "niqueIndex" from rfl]; simp
        · rw [show txt ":" = [58] from rfl]; simp
      · exact ih _ x hx
    · exact ih _ x hx

theorem hasPrefix_head (s p : Bytes) (a : Nat) (h : hasPrefix s (a :: p) = true) :
    s.head? = some a := by
  cases s with
  | nil => simp [hasPrefix, List.isPrefixOf] at h
  | cons x xs =>
    simp only [hasPrefix, List.isPrefixOf, Bool.and_eq_true, beq_iff_eq] at h
    simp [h.1]

theorem hasPrefix_append (p s : Bytes) : hasPrefix (p ++ s) p = true := by
  induction p with
  | nil => cases s <;> simp [hasPrefix, List.isPrefixOf]
  | cons a p ih =>
    simp only [hasPrefix, List.cons_append, List.isPrefixOf, beq_self_eq_true, Bool.true_and]
    exact ih

theorem default_fragment_iff (t : Table) (f : Field) :
    (∃ frag ∈ gormTags t f, hasPrefix frag (txt "default:") = true) ↔ f.Default.valid = true := by
  have hd : txt "default:" = 100 :: txt "efault:" := rfl
  constructor
  · rintro ⟨frag, hmem, hp⟩
    have hhead : frag.head? = some 100 := hasPrefix_head frag _ 100 (by rw [← hd]; exact hp)
    unfold gormTags at hmem
    simp only [List.mem_append, List.mem_singleton, List.mem_map, List.mem_filter,
      List.mem_flatten] at hmem
    rcases hmem with ((h | h) | h) | h
    · subst h
      rw [show txt "column:" = 99 :: txt "olumn:" from rfl] at hhead
      simp at hhead
    · by_cases hv : f.Default.valid = true
      · exact hv
      · rw [if_neg hv] at h
        simp at h
    · obtain ⟨_, _, h⟩ := h
      subst h
      rw [show txt "primaryKey" = 112 :: txt "rimaryKey" from rfl] at hhead
      simp at hhead
    · obtain ⟨l, ⟨index, _, rfl⟩, hl⟩ := h
      exact absurd hhead (indexTags_head _ _ _ _ _ hl)
  · intro hv
    refine ⟨txt "default:" ++ f.Default.value, ?_, hasPrefix_append _ _⟩
    unfold gormTags
    simp [hv]

theorem buildTag_SortField (t : Table) (b : Bool) (f : Field) :
    buildTag { t with SortField := b } f = buildTag t f := rfl

theorem genMembers_SortField (t : Table) (b : Bool) : ∀ (fs : List Field) (seen : Bool),
    genMembers { t with SortField := b } fs seen = genMembers t fs seen := by
  intro fs
  induction fs with
  | nil => intro seen; rfl
  | cons v vs ih =>
    intro seen
    simp only [genMembers, buildTag_SortField, ih]

theorem genMembers_names (t : Table) : ∀ (fs : List Field) (seen : Bool)
    (ms : List Member) (paths : List Bytes), genMembers t fs seen = some (ms, paths) →
    ms.map Member.Name = fs.map Field.Name := by
  intro fs
  induction fs with
  | nil =>
    intro seen ms paths h
    simp only [genMembers, Option.some.injEq, Prod.mk.injEq] at h
    rw [← h.1]
    rfl
  | cons v vs ih =>
    intro seen ms paths h
    simp only [genMembers, Option.bind_eq_bind, Option.bind_eq_some, Option.pure_def,
      Option.some.injEq, Prod.mk.injEq] at h
    obtain ⟨tp, _, ⟨ms1, paths1⟩, hrec, hms, _⟩ := h
    rw [← hms]
    simp only [List.map_cons, ih _ _ _ hrec]

/-- An index whose listed names are all unknown to the map leaves the table as it is. -/
theorem attachIndex_unknown (idx : Index) : ∀ (vs : List Bytes) (t : Table),
    (∀ v ∈ vs, mapGet t.nameFiledMap v = none) → attachIndex idx t vs = t := by
  intro vs
  induction vs with
  | nil => intro t _; rfl
  | cons v vs ih =>
    intro t h
    unfold attachIndex
    rw [h v (by simp)]
    exact ih t (fun x hx => h x (by simp [hx]))

theorem trimLeftByte_of_not_mem (q : Nat) (s : Bytes) (h : q ∉ s) : trimLeftByte q s = s := by
  apply trimLeftByte_of_head_ne
  intro e
  exact h (List.mem_of_mem_head? e)

theorem trimByte_of_not_mem (q : Nat) (s : Bytes) (h : q ∉ s) : trimByte q s = s := by
  unfold trimByte trimRightByte
  rw [trimLeftByte_of_not_mem q s h, trimLeftByte_of_not_mem q s.reverse (by simpa using h)]
  simp

theorem trimByte_cons_self (q : Nat) (s : Bytes) : trimByte q (q :: s) = trimByte q s := by
  unfold trimByte
  simp [trimLeftByte]

/-- A comment text of several words is cut at its first blank. -/
theorem parseComment_trailer_words (t : Table) (w rest : Bytes) (h32 : 32 ∉ w) (h61 : 61 ∉ w)
    (h39 : 39 ∉ w) (h59 : 59 ∉ w) :
    parseComment t (trailerLine (w ++ 32 :: rest)) = { t with Comment := w } := by
  have e1 : trailerLine (w ++ 32 :: rest)
      = txt ") ENGINE=InnoDB COMMENT='" ++ (w ++ 32 :: (rest ++ [39, 59])) := by
    simp [trailerLine, txt]
  have e2 : txt "COMMENT='" ++ (w ++ 32 :: (rest ++ [39, 59]))
      = (txt "COMMENT" ++ 61 :: (39 :: w)) ++ 32 :: (rest ++ [39, 59]) := by
    simp [txt]
  have hb : (32 : Nat) ∉ txt "COMMENT" ++ 61 :: (39 :: w) := by
    simp only [List.mem_append, List.mem_cons]
    rintro (h | h | h | h)
    · revert h; decide
    · omega
    · omega
    · exact h32 h
  have he : (61 : Nat) ∉ 39 :: w := by
    simp only [List.mem_cons]
    rintro (h | h)
    · omega
    · exact h61 h
  have hq : (59 : Nat) ∉ 39 :: w := by
    simp only [List.mem_cons]
    rintro (h | h)
    · omega
    · exact h59 h
  unfold parseComment
  rw [e1, dropToFirst_trailer, e2]
  simp only []
  rw [split_append_sep _ hb]
  simp only []
  rw [split_append_sep _ (by decide), split_of_not_mem he]
  simp only []
  rw [trimByte_of_not_mem 59 _ hq, trimByte_cons_self, trimByte_of_not_mem 39 w h39]

theorem ddlLines_append (A B : List Bytes) : ddlLines (A ++ B) = ddlLines A ++ ddlLines B := by
  simp [ddlLines]

/-- C1 (the code panics where the claim says it never does). `Parse` panics on a line
that is only a comma, on a field line whose last token is `NOT`, `DEFAULT` or
`COMMENT`, on a `CREATE TABLE` line without a third token and on an index line
without a column list; the field and index cases do so whatever the helpers are. -/
theorem Parse_panics_on_malformed_lines :
    Parse specHelpers newTable (txt ",") = none
    ∧ Parse specHelpers newTable (txt "`a` int NOT") = none
    ∧ Parse specHelpers newTable (txt "`a` int DEFAULT") = none
    ∧ Parse specHelpers newTable (txt "`a` int COMMENT") = none
    ∧ Parse specHelpers newTable (txt "CREATE TABLE") = none
    ∧ Parse specHelpers newTable (txt "KEY k") = none
    ∧ Parse specHelpers newTable (txt "UNIQUE KEY k") = none
    ∧ (∀ H t, parseField H t (txt "`a` int NOT") = none)
    ∧ (∀ H t, parseField H t (txt "`a` int DEFAULT") = none)
    ∧ (∀ H t, parseField H t (txt "`a` int COMMENT") = none)
    ∧ (∀ H t, parseIndex H t (txt "KEY k") = none)
    ∧ (∀ H t, parseUniqueIndex H t (txt "UNIQUE KEY k") = none) := by
  refine ⟨by decide, by decide, by decide, by decide, by decide, by decide, by decide,
    ?_, ?_, ?_, ?_, ?_⟩ <;> intro H t <;> rfl

/-- C2. `getType` is the fixed table: on a field with a `Type` record it returns, and the
resolved name is the entry of the table for the base type name, the unsigned flag
and the size (tinyint gives bool for size 1 and int otherwise, whatever the unsigned
flag is; smallint int16 or uint16; int and integer int or uint; bigint int64 or
uint64; decimal and float float64; char, varchar, text and longtext string; date,
datetime, timestamp and time time.Time; json the empty interface); for every other
name the name of the record is left as it was, which is the empty name in the fresh
record that `parseType`, the only caller, creates. -/
theorem getType_is_the_fixed_table (t : Table) (f : Field) (tp : TypeRec)
    (h : f.Typ = some tp) :
    getType t f = some (withTimeImport t f.TypeName,
      { f with Typ := some { tp with
          name := (specTypeTable f.TypeName f.Unsigned tp.size).getD tp.name } })
    ∧ (tp.name = [] → ∃ r, getType t f = some r
        ∧ r.2.Typ.map TypeRec.name
            = some ((specTypeTable f.TypeName f.Unsigned tp.size).getD [])) := by
  refine ⟨getType_eq t f tp h, fun h0 => ⟨_, getType_eq t f tp h, ?_⟩⟩
  simp [h0]

/-- C2, at a smallint column that is unsigned and at a column of an unknown type. -/
theorem getType_is_the_fixed_table_witness :
    getType newTable
        { emptyField with
          TypeName := txt "smallint", Unsigned := true,
          Typ := some { size := 5, decimalSize := 0, name := [] } }
      = some (newTable,
        { emptyField with
          TypeName := txt "smallint", Unsigned := true,
          Typ := some { size := 5, decimalSize := 0, name := txt "uint16" } })
    ∧ ∃ r, getType newTable
          { emptyField with
            TypeName := txt "blob", Typ := some { size := 0, decimalSize := 0, name := [] } }
          = some r
        ∧ r.2.Typ.map TypeRec.name = some [] :=
  ⟨(getType_is_the_fixed_table newTable
      { emptyField with
        TypeName := txt "smallint", Unsigned := true,
        Typ := some { size := 5, decimalSize := 0, name := [] } } _ rfl).1,
   (getType_is_the_fixed_table newTable
      { emptyField with
        TypeName := txt "blob", Typ := some { size := 0, decimalSize := 0, name := [] } }
      _ rfl).2 rfl⟩

/-- C3, the claim as stated fails: for the numeral m = 2^63 the token `int(m)` gives the
size 2^63 - 1, because `strconv.Atoi` returns the largest `int` when the numeral is
out of range. -/
theorem parseType_size_out_of_range :
    txt "int(9223372036854775808)" = txt "int" ++ txt "(" ++ decimal (2 ^ 63) ++ txt ")"
    ∧ (parseType newTable { emptyField with TypeName := txt "int(9223372036854775808)" }).map
        (fun r => r.2.Typ.map TypeRec.size) = some (some (2 ^ 63 - 1)) := by
  decide

/-- C3, amended: for every base type name `b` without `(` and all numbers m, n below 2^63
(the range of `int`), `parseType` on the token `b(m,n)` yields TypeName = b, size = m
and decimalSize = n, and on `b(m)` it yields TypeName = b, size = m and decimalSize =
0; nothing else of the field changes, so RawTypeName keeps the verbatim token, and
the resolved name is the entry of the type table. In particular the field line with
the token `decimal(10,2)` gives base type decimal, size 10, decimalSize 2, resolved
type float64 and the raw type token `decimal(10,2)`. -/
theorem parseType_reads_the_sizes (t : Table) (f : Field) (b : Bytes) (m n : Nat)
    (hb : 40 ∉ b) (hm : m < 2 ^ 63) (hn : n < 2 ^ 63) :
    (f.TypeName = b ++ txt "(" ++ decimal m ++ txt "," ++ decimal n ++ txt ")" →
      parseType t f = some (withTimeImport t b,
        { f with
          TypeName := b,
          Typ := some { size := m, decimalSize := n,
                        name := (specTypeTable b f.Unsigned m).getD [] } }))
    ∧ (f.TypeName = b ++ txt "(" ++ decimal m ++ txt ")" →
      parseType t f = some (withTimeImport t b,
        { f with
          TypeName := b,
          Typ := some { size := m, decimalSize := 0,
                        name := (specTypeTable b f.Unsigned m).getD [] } }))
    ∧ parseField specHelpers newTable (txt "`price` decimal(10,2)")
        = some { newTable with
            Fields := [{ emptyField with
              Name := txt "Price", RawName := txt "price", TypeName := txt "decimal",
              RawTypeName := txt "decimal(10,2)",
              Typ := some { size := 10, decimalSize := 2, name := txt "float64" } }],
            nameFiledMap := [(txt "price", 0)] } := by
  have hm' : toUint (atoi (decimal m)) = m := by
    rw [atoi_decimal m hm, toUint_natCast m (by omega)]
  have hn' : toUint (atoi (decimal n)) = n := by
    rw [atoi_decimal n hn, toUint_natCast n (by omega)]
  refine ⟨fun hf => ?_, fun hf => ?_, by decide⟩
  · have e : f.TypeName = b ++ 40 :: (decimal m ++ 44 :: (decimal n ++ [41])) := by
      rw [hf]; simp [txt]
    rw [parseType_sizes t f b _ _ hb (decimal_digits m) (decimal_digits n) e, hm', hn',
      getType_eq _ _ _ rfl]
  · have e : f.TypeName = b ++ 40 :: (decimal m ++ [41]) := by
      rw [hf]; simp [txt]
    rw [parseType_size t f b _ hb (decimal_digits m) e, hm', getType_eq _ _ _ rfl]

/-- C3 amended, at the tokens `varchar(32)` and `decimal(10,2)`. -/
theorem parseType_reads_the_sizes_witness :
    parseType newTable { emptyField with TypeName := txt "decimal(10,2)" }
      = some (newTable,
          { emptyField with
            TypeName := txt "decimal",
            Typ := some { size := 10, decimalSize := 2, name := txt "float64" } })
    ∧ parseType newTable { emptyField with TypeName := txt "varchar(32)" }
      = some (newTable,
          { emptyField with
            TypeName := txt "varchar",
            Typ := some { size := 32, decimalSize := 0, name := txt "string" } }) :=
  ⟨(parseType_reads_the_sizes newTable { emptyField with TypeName := txt "decimal(10,2)" }
      (txt "decimal") 10 2 (by decide) (by decide) (by decide)).1 (by decide),
   (parseType_reads_the_sizes newTable { emptyField with TypeName := txt "varchar(32)" }
      (txt "varchar") 32 0 (by decide) (by decide) (by decide)).2.1 (by decide)⟩

/-- C4 (the code departs from the claim). The default `10` is not recorded as `10`: the
code replaces every value token of two bytes, not only the empty string literal,
by the two quote characters. -/
theorem parseField_default_of_two_bytes :
    (∀ f : Field, parseFieldLoop f [txt "DEFAULT", txt "10"]
      = some { f with Default := { value := txt "''", valid := true } })
    ∧ (Parse specHelpers newTable (txt "`a` int DEFAULT 10")).map
        (fun t => t.Fields.map Field.Default) = some [{ value := txt "''", valid := true }]
    ∧ (Parse specHelpers newTable (txt "`a` int DEFAULT 'ab'")).map
        (fun t => t.Fields.map Field.Default) = some [{ value := txt "ab", valid := true }] := by
  refine ⟨fun f => rfl, by decide, by decide⟩

/-- C5 (the code departs from the claim). For a column of the unresolved type `blob`, in
a table of package `model`, `GenCode` returns source text in which the member `A` has
the empty type name, read from `Type.name` (the text declares `A` without a type),
while `Type.String` of that record is the placeholder `interface{}`. -/
theorem GenCode_member_of_unresolved_type :
    (Parse specHelpers (modelConfig false).Build (txt "CREATE TABLE `t` (\n`a` blob\n)")).bind
        (GenCode goFormat)
      = some (Output.source
          { PkgName := txt "model", Imports := [], Doc := none, TypeName := txt "T",
            Members := [{ Name := txt "A", Typ := [], Tag := none, Comment := none }],
            Receiver := txt "t", TableName := txt "\"t\"" })
    ∧ TypeRec.String { size := 0, decimalSize := 0, name := [] } = txt "interface\x7b\x7d" := by
  decide

/-- C6. The field line `` `id` int unsigned NOT NULL AUTO_INCREMENT `` yields a field with
RawName id, resolved type uint and the three flags set; and for every list of the
modifiers `unsigned`, `NOT NULL` and `AUTO_INCREMENT` after the type token `int`
(every subset in every order, repetitions included) each flag is set exactly when
its modifier occurs, and the resolved type is uint exactly when `unsigned` occurs
and int otherwise. The column token is any token without a blank, and `trim` is
assumed to leave the word `int` as it is. -/
theorem parseField_int_modifiers (H : Helpers) (t : Table) (col : Bytes) (ms : List Modifier)
    (hcol : 32 ∉ col) (hint : H.trim (txt "int") = txt "int") :
    parseField H t (fieldLine col (txt "int") ms)
      = some { t with
          Fields := t.Fields ++ [{ emptyField with
            Name := H.title (H.trim col), RawName := H.trim col,
            TypeName := txt "int", RawTypeName := txt "int",
            Unsigned := decide (Modifier.unsigned ∈ ms),
            NotNull := decide (Modifier.notNull ∈ ms),
            AutoIncrement := decide (Modifier.autoIncrement ∈ ms),
            Typ := some { size := 0, decimalSize := 0,
                          name := if Modifier.unsigned ∈ ms then txt "uint" else txt "int" } }],
          nameFiledMap := mapSet t.nameFiledMap (H.trim col) t.Fields.length }
    ∧ parseField specHelpers newTable (txt "`id` int unsigned NOT NULL AUTO_INCREMENT")
      = some { newTable with
          Fields := [{ emptyField with
            Name := txt "Id", RawName := txt "id", TypeName := txt "int",
            RawTypeName := txt "int", Unsigned := true, NotNull := true, AutoIncrement := true,
            Typ := some { size := 0, decimalSize := 0, name := txt "uint" } }],
          nameFiledMap := [(txt "id", 0)] } := by
  refine ⟨?_, by decide⟩
  have hs : split 32 (fieldLine col (txt "int") ms)
      = col :: txt "int" :: (ms.map Modifier.tokens).flatten := by
    unfold fieldLine
    rw [show txt " " = [32] from rfl]
    apply split_joinWith 32 _ (by simp)
    intro tok htok
    simp only [List.mem_cons] at htok
    rcases htok with htok | htok | htok
    · subst htok; exact hcol
    · subst htok; decide
    · exact modifier_tokens_no_blank ms tok htok
  unfold parseField
  rw [hs]
  simp only [hint, parseFieldLoop_modifiers, Option.bind_eq_bind, Option.some_bind]
  rw [parseType_plain _ _ (by show txt "int" ≠ []; decide) (by show 40 ∉ txt "int"; decide),
    getType_eq _ _ _ rfl]
  simp only [Option.some_bind, Option.pure_def, emptyField, Bool.false_or]
  by_cases hu : Modifier.unsigned ∈ ms
  · simp only [hu, decide_True, if_true]; rfl
  · simp only [hu, decide_False, if_false]; rfl

/-- C6, for the modifiers `AUTO_INCREMENT unsigned` in this order, with the helpers of the
specification. -/
theorem parseField_int_modifiers_witness :
    parseField specHelpers newTable (txt "`n` int AUTO_INCREMENT unsigned")
      = some { newTable with
          Fields := [{ emptyField with
            Name := txt "N", RawName := txt "n", TypeName := txt "int",
            RawTypeName := txt "int", Unsigned := true, NotNull := false, AutoIncrement := true,
            Typ := some { size := 0, decimalSize := 0, name := txt "uint" } }],
          nameFiledMap := [(txt "n", 0)] } :=
  (parseField_int_modifiers specHelpers newTable (txt "`n`")
    [Modifier.autoIncrement, Modifier.unsigned] (by decide) (by decide)).1

/-- C7. For every column name `c` without a blank and without a backtick, the line
PRIMARY KEY (`c`) appends exactly `c` to PrimaryKeys, in `parseKey` and in the loop of
`Parse` (outside a block comment, `trimLine` leaving the line as it is); and with ORM
tags enabled the tag of a field is the back-quoted text that holds `gorm:"..."` with
the fragments joined by `;`, and `primaryKey` is one of these fragments exactly when
the raw name of the field occurs in the PrimaryKeys of the table. -/
theorem primary_key_line_and_tag :
    (∀ (t : Table) (c : Bytes), 32 ∉ c → 96 ∉ c →
      parseKey t (txt "PRIMARY KEY (`" ++ c ++ txt "`)")
        = { t with PrimaryKeys := t.PrimaryKeys ++ [c] })
    ∧ (∀ (H : Helpers) (t : Table) (c : Bytes), 32 ∉ c → 96 ∉ c →
      H.trimLine (txt "PRIMARY KEY (`" ++ c ++ txt "`)") = txt "PRIMARY KEY (`" ++ c ++ txt "`)" →
      parseLine H (t, false) (txt "PRIMARY KEY (`" ++ c ++ txt "`)")
        = some ({ t with PrimaryKeys := t.PrimaryKeys ++ [c] }, false))
    ∧ (∀ (t : Table) (f : Field), t.UseGormTag = true →
      buildTag t f = some (txt "`"
        ++ (if t.UseJsonTag then txt "json:\"" ++ f.RawName ++ txt "\" " else [])
        ++ txt "gorm:\"" ++ joinWith (txt ";") (gormTags t f) ++ txt "\"" ++ txt "`")
      ∧ (txt "primaryKey" ∈ gormTags t f ↔ f.RawName ∈ t.PrimaryKeys)) := by
  refine ⟨fun t c hs hq => parseKey_single t c hs hq, fun H t c hs hq htrim => ?_,
    fun t f h => ⟨buildTag_gorm t f h, primaryKey_mem_gormTags t f⟩⟩
  have e : txt "PRIMARY KEY (`" ++ c ++ txt "`)"
      = 80 :: ((txt "RIMARY KEY (`" ++ c ++ [96]) ++ [41]) := by
    simp [txt]
  have hk := parseKey_single t c hs hq
  rw [e] at hk htrim ⊢
  unfold parseLine
  simp only [htrim]
  rw [trimByte_comma_line 80 _ (by decide), ← hk]
  rfl

/-- C7, at the column `id` and at a table whose primary key is `id`. -/
theorem primary_key_line_and_tag_witness :
    parseKey newTable (txt "PRIMARY KEY (`id`)") = { newTable with PrimaryKeys := [txt "id"] }
    ∧ parseLine specHelpers (newTable, false) (txt "PRIMARY KEY (`id`)")
        = some ({ newTable with PrimaryKeys := [txt "id"] }, false)
    ∧ buildTag { newTable with UseGormTag := true, PrimaryKeys := [txt "id"] }
          { emptyField with RawName := txt "id", RawTypeName := txt "int" }
        = some (txt "`gorm:\"column:id;type:int;primaryKey\"`") :=
  ⟨primary_key_line_and_tag.1 newTable (txt "id") (by decide) (by decide),
   primary_key_line_and_tag.2.1 specHelpers newTable (txt "id") (by decide) (by decide)
     (by decide),
   (primary_key_line_and_tag.2.2 { newTable with UseGormTag := true, PrimaryKeys := [txt "id"] }
     { emptyField with RawName := txt "id", RawTypeName := txt "int" } rfl).1⟩

/-- C9, the claim as stated fails: after a plain and a unique index line have been parsed
(both are in the back-references of the column `a`), `Table.Indexes` is empty. -/
theorem Parse_leaves_Indexes_empty :
    (Parse specHelpers newTable
        (txt "CREATE TABLE `t` (\n`a` int,\nKEY k (`a`),\nUNIQUE KEY u (`a`)\n)")).map
      (fun t => (t.Indexes, t.Fields.map (fun f => f.indexes.map Index.RawName)))
      = some ([], [[txt "k", txt "u"]]) := by
  decide

/-- C9, amended: `Parse` never changes `Table.Indexes`; on a table made by `Config.Build`
(or `newTable`) it is empty after every call that returns, whatever index lines the
input holds (the indexes are kept in the back-references of the fields only). -/
theorem Parse_keeps_Indexes (H : Helpers) (t t' : Table) (data : Bytes)
    (h : Parse H t data = some t') :
    t'.Indexes = t.Indexes ∧ (∀ c : Config, t = c.Build → t'.Indexes = []) := by
  have key : t'.Indexes = t.Indexes := by
    rw [Parse_eq, Option.map_eq_some'] at h
    obtain ⟨st, hst, h⟩ := h
    subst h
    exact parseLines_indexes H _ _ _ hst
  refine ⟨key, fun c hc => ?_⟩
  rw [key, hc]
  rfl

/-- C9 amended, at a table definition with one plain index line. -/
theorem Parse_keeps_Indexes_witness :
    ∃ t', Parse specHelpers newTable (txt "CREATE TABLE `t` (\n`a` int,\nKEY k (`a`)\n)") = some t'
      ∧ t'.Fields.map (fun f => f.indexes.map Index.RawName) = [[txt "k"]]
      ∧ t'.Indexes = [] := by
  have e : (Parse specHelpers newTable (txt "CREATE TABLE `t` (\n`a` int,\nKEY k (`a`)\n)")).isSome
      = true := by decide
  obtain ⟨t', ht'⟩ := Option.isSome_iff_exists.mp e
  refine ⟨t', ht', ?_, (Parse_keeps_Indexes specHelpers newTable t' _ ht').1⟩
  have e2 : (Parse specHelpers newTable (txt "CREATE TABLE `t` (\n`a` int,\nKEY k (`a`)\n)")).map
      (fun t => t.Fields.map (fun f => f.indexes.map Index.RawName)) = some [[txt "k"]] := by
    decide
  rw [ht'] at e2
  exact Option.some.inj e2

/-- C11, the claim as stated fails, in each of these ways. For the comment text
`users table` of two words the trailer line sets `Table.Comment` to `users`, the text
up to the first blank. For the text `a=b` it sets it to `a`, the text up to the second
`=` of the token. For the empty text, in a complete table definition of package
`model`, `GenCode` returns source text without a doc comment. And after the trailer
line alone the comment is set but the table has no name, so `GenCode` returns no
bytes, hence no doc comment. -/
theorem table_comment_not_the_whole_text :
    parseComment newTable (trailerLine (txt "users table"))
      = { newTable with Comment := txt "users" }
    ∧ trailerLine (txt "users table") = txt ") ENGINE=InnoDB COMMENT='users table';"
    ∧ (Parse specHelpers newTable (txt ") ENGINE=InnoDB COMMENT='users table';")).map
        Table.Comment = some (txt "users")
    ∧ (Parse specHelpers newTable (txt ") ENGINE=InnoDB COMMENT='a=b';")).map
        Table.Comment = some (txt "a")
    ∧ ((Parse specHelpers (modelConfig false).Build
          (txt "CREATE TABLE `user` (\n`id` int\n) ENGINE=InnoDB COMMENT='';")).bind
        (GenCode goFormat)).map
        (fun o => match o with
          | Output.empty => none
          | Output.source file => some (file.TypeName, file.Doc))
        = some (some (txt "User", none))
    ∧ (Parse specHelpers (modelConfig false).Build
          (txt ") ENGINE=InnoDB COMMENT='users';")).map
        (fun t => (t.Name, t.Comment, GenCode goFormat t))
        = some ([], txt "users", some Output.empty) := by
  decide

/-- C11, amended: for every trailer line `) ENGINE=InnoDB COMMENT='c';` whose comment text
`c` holds no blank, no `=` and no single quote, `parseComment` sets `Table.Comment` to
the whole text `c`, and so does the loop of `Parse` (outside a block comment,
`trimLine` leaving the line as it is); a comment text of several words is cut at its
first blank: the comment is the first word (a word without `=`, single quote and
semicolon); and when `GenCode` returns source text for a table with a non-empty
comment, whatever the formatter accepts, the doc comment of the type is
`// <TypeName> <comment>`. -/
theorem table_comment_of_one_word :
    (∀ (t : Table) (c : Bytes), 32 ∉ c → 61 ∉ c → 39 ∉ c →
      parseComment t (trailerLine c) = { t with Comment := c })
    ∧ (∀ (H : Helpers) (t : Table) (c : Bytes), 32 ∉ c → 61 ∉ c → 39 ∉ c →
      H.trimLine (trailerLine c) = trailerLine c →
      parseLine H (t, false) (trailerLine c) = some ({ t with Comment := c }, false))
    ∧ (∀ (fmt : Formatter) (t : Table) (file : File), t.Comment ≠ [] →
      GenCode fmt t = some (Output.source file) →
      file.Doc = some (txt "// " ++ t.Name ++ txt " " ++ t.Comment))
    ∧ (∀ (t : Table) (w rest : Bytes), 32 ∉ w → 61 ∉ w → 39 ∉ w → 59 ∉ w →
      parseComment t (trailerLine (w ++ txt " " ++ rest)) = { t with Comment := w }) := by
  refine ⟨parseComment_trailer, fun H t c h32 h61 h39 htrim => ?_, fun fmt t file hc h => ?_,
    fun t w rest h32 h61 h39 h59 => ?_⟩
  · have e : trailerLine c = 41 :: ((txt " ENGINE=InnoDB COMMENT='" ++ c ++ [39]) ++ [59]) := by
      simp [trailerLine, txt]
    have hk := parseComment_trailer t c h32 h61 h39
    rw [e] at hk htrim ⊢
    unfold parseLine
    simp only [htrim]
    rw [trimByte_ends 44 41 59 _ (by decide) (by decide), ← hk]
    rfl
  · obtain ⟨_, _, members, paths, receiver, _, _, hf⟩ := GenCode_source fmt t file h
    rw [hf]
    simp only [if_neg hc, toComment, List.append_assoc]
  · have e : w ++ txt " " ++ rest = w ++ 32 :: rest := by simp [txt]
    rw [e]
    exact parseComment_trailer_words t w rest h32 h61 h39 h59

/-- C11 amended, at the comment texts `users` and `users table`, and at a complete table
definition of package `model`, for which source text with the doc comment is
returned. -/
theorem table_comment_of_one_word_witness :
    parseComment newTable (txt ") ENGINE=InnoDB COMMENT='users';")
      = { newTable with Comment := txt "users" }
    ∧ parseLine specHelpers (newTable, false) (txt ") ENGINE=InnoDB COMMENT='users';")
      = some ({ newTable with Comment := txt "users" }, false)
    ∧ parseComment newTable (trailerLine (txt "users" ++ txt " " ++ txt "table"))
      = { newTable with Comment := txt "users" }
    ∧ ∃ file, (Parse specHelpers (modelConfig false).Build
          (txt "CREATE TABLE `user` (\n`id` int\n) ENGINE=InnoDB COMMENT='users';")).bind
          (GenCode goFormat)
        = some (Output.source file) ∧ file.Doc = some (txt "// User users") := by
  refine ⟨table_comment_of_one_word.1 newTable (txt "users") (by decide) (by decide)
      (by decide),
    table_comment_of_one_word.2.1 specHelpers newTable (txt "users") (by decide) (by decide)
      (by decide) (by decide),
    table_comment_of_one_word.2.2.2 newTable (txt "users") (txt "table") (by decide)
      (by decide) (by decide) (by decide), ?_⟩
  have e : ((Parse specHelpers (modelConfig false).Build
      (txt "CREATE TABLE `user` (\n`id` int\n) ENGINE=InnoDB COMMENT='users';")).bind
        (GenCode goFormat)).map (fun o => decide (o = Output.empty)) = some false := by decide
  have e2 : (Parse specHelpers (modelConfig false).Build
      (txt "CREATE TABLE `user` (\n`id` int\n) ENGINE=InnoDB COMMENT='users';")).map
        (fun t => (t.Name, t.Comment)) = some (txt "User", txt "users") := by decide
  cases hp : Parse specHelpers (modelConfig false).Build
      (txt "CREATE TABLE `user` (\n`id` int\n) ENGINE=InnoDB COMMENT='users';") with
  | none => rw [hp] at e2; cases e2
  | some t =>
    rw [hp] at e e2
    simp only [Option.map_some', Option.some.injEq, Prod.mk.injEq] at e2
    simp only [Option.some_bind] at e ⊢
    cases hg : GenCode goFormat t with
    | none => rw [hg] at e; cases e
    | some out =>
      cases out with
      | empty => rw [hg] at e; simp at e
      | source file =>
        refine ⟨file, rfl, ?_⟩
        have hd := table_comment_of_one_word.2.2.1 goFormat t file (by rw [e2.2]; decide) hg
        rw [hd, e2.1, e2.2]
        rfl

/-- C13. `buildTag` assembles the tag of a member as specified: with neither flag there
is no tag; with the JSON flag alone the tag is the back-quoted `json:"<raw name>"`;
with the ORM flag alone it is the back-quoted `gorm:"..."` whose fragments are joined
by `;`; with both flags the JSON part comes first and one blank separates the two
parts inside one back-quoted tag. The first fragment is `column:<raw name>;type:<raw
type token>`; a fragment that starts with `default:` is present exactly when a
default was captured, and then it is `default:<value>`, right after the first. -/
theorem buildTag_as_specified (t : Table) (f : Field) :
    (t.UseJsonTag = false → t.UseGormTag = false → buildTag t f = none)
    ∧ (t.UseJsonTag = true → t.UseGormTag = false →
        buildTag t f = some (txt "`json:\"" ++ f.RawName ++ txt "\"`"))
    ∧ (t.UseJsonTag = false → t.UseGormTag = true →
        buildTag t f = some (txt "`gorm:\"" ++ joinWith (txt ";") (gormTags t f) ++ txt "\"`"))
    ∧ (t.UseJsonTag = true → t.UseGormTag = true →
        buildTag t f = some (txt "`json:\"" ++ f.RawName ++ txt "\" gorm:\""
          ++ joinWith (txt ";") (gormTags t f) ++ txt "\"`"))
    ∧ (∃ rest, gormTags t f
        = (txt "column:" ++ f.RawName ++ txt ";type:" ++ f.RawTypeName) :: rest)
    ∧ (f.Default.valid = true → ∃ rest, gormTags t f
        = (txt "column:" ++ f.RawName ++ txt ";type:" ++ f.RawTypeName)
          :: (txt "default:" ++ f.Default.value) :: rest)
    ∧ ((∃ frag ∈ gormTags t f, hasPrefix frag (txt "default:") = true)
        ↔ f.Default.valid = true) := by
  refine ⟨fun hj hg => ?_, fun hj hg => ?_, fun hj hg => ?_, fun hj hg => ?_, ?_, fun hv => ?_,
    default_fragment_iff t f⟩
  · simp [buildTag, hj, hg]
  · simp only [buildTag, hj, hg, Bool.not_true, Bool.not_false, Bool.false_and, Bool.and_false,
      if_true, if_false, List.append_nil, joinWith, Bool.false_eq_true]
    rw [show txt "\"`" = txt "\"" ++ txt "`" from rfl,
      show txt "`json:\"" = txt "`" ++ txt "json:\"" from rfl]
    simp only [List.append_assoc]
  · simp only [buildTag, hj, hg, Bool.not_true, Bool.not_false, Bool.false_and, Bool.and_false,
      Bool.true_and, if_true, if_false, List.nil_append, joinWith, Bool.false_eq_true]
    rw [show txt "\"`" = txt "\"" ++ txt "`" from rfl,
      show txt "`gorm:\"" = txt "`" ++ txt "gorm:\"" from rfl]
    simp only [List.append_assoc]
  · simp only [buildTag, hj, hg, Bool.not_true, Bool.not_false, Bool.false_and, Bool.and_false,
      if_true, if_false, List.singleton_append, joinWith, Bool.false_eq_true]
    rw [show txt "\"`" = txt "\"" ++ txt "`" from rfl,
      show txt "`json:\"" = txt "`" ++ txt "json:\"" from rfl,
      show txt "\" gorm:\"" = txt "\"" ++ (txt " " ++ txt "gorm:\"") from rfl]
    simp only [List.append_assoc]
  · exact ⟨_, rfl⟩
  · unfold gormTags
    rw [if_pos hv]
    exact ⟨_, rfl⟩

/-- C13, at a column with the default `x`: both flags, the ORM flag alone, the JSON flag
alone, and no flag. -/
theorem buildTag_as_specified_witness :
    buildTag { newTable with UseJsonTag := true, UseGormTag := true }
        { emptyField with
          RawName := txt "n", RawTypeName := txt "varchar(8)",
          Default := { value := txt "x", valid := true } }
      = some (txt "`json:\"n\" gorm:\"column:n;type:varchar(8);default:x\"`")
    ∧ buildTag { newTable with UseGormTag := true }
        { emptyField with RawName := txt "n", RawTypeName := txt "int" }
      = some (txt "`gorm:\"column:n;type:int\"`")
    ∧ buildTag { newTable with UseJsonTag := true }
        { emptyField with RawName := txt "n", RawTypeName := txt "int" }
      = some (txt "`json:\"n\"`")
    ∧ buildTag newTable { emptyField with RawName := txt "n", RawTypeName := txt "int" } = none :=
  ⟨(buildTag_as_specified { newTable with UseJsonTag := true, UseGormTag := true }
      { emptyField with
        RawName := txt "n", RawTypeName := txt "varchar(8)",
        Default := { value := txt "x", valid := true } }).2.2.2.1 rfl rfl,
   (buildTag_as_specified { newTable with UseGormTag := true }
      { emptyField with RawName := txt "n", RawTypeName := txt "int" }).2.2.1 rfl rfl,
   (buildTag_as_specified { newTable with UseJsonTag := true }
      { emptyField with RawName := txt "n", RawTypeName := txt "int" }).2.1 rfl rfl,
   (buildTag_as_specified newTable
      { emptyField with RawName := txt "n", RawTypeName := txt "int" }).1 rfl rfl⟩

/-- C14 (the code panics where the claim says it never does). A field line with two
blanks after the column name has an empty type token: `parseType` returns before it
creates the `Type` record, `Parse` completes with a field whose `Type` is nil, and
`GenCode` panics when it reads `v.Type.name`. -/
theorem GenCode_panics_on_nil_Type :
    (Parse specHelpers newTable (txt "CREATE TABLE `t` (\n`a`  int\n)")).map
        (fun t => (t.Name, t.RawName, t.Fields.map Field.Typ)) = some (txt "T", txt "t", [none])
    ∧ (∀ fmt : Formatter,
        (Parse specHelpers newTable (txt "CREATE TABLE `t` (\n`a`  int\n)")).map (GenCode fmt)
          = some none)
    ∧ (∀ (t : Table) (f : Field), f.TypeName = [] → parseType t f = some (t, f))
    ∧ (∀ (t : Table) (v : Field) (vs : List Field) (seen : Bool), v.Typ = none →
        genMembers t (v :: vs) seen = none) := by
  refine ⟨by decide, fun fmt => ?_, fun t f h => ?_, fun t v vs seen h => ?_⟩
  · rfl
  · unfold parseType
    rw [if_pos h]
  · simp [genMembers, h]

/-- C14, at a field with an empty type name and at a table whose only field has no
`Type` record. -/
theorem GenCode_panics_on_nil_Type_witness :
    parseType newTable { emptyField with RawName := txt "a" }
      = some (newTable, { emptyField with RawName := txt "a" })
    ∧ genMembers newTable [{ emptyField with RawName := txt "a" }] false = none :=
  ⟨GenCode_panics_on_nil_Type.2.2.1 newTable { emptyField with RawName := txt "a" } rfl,
   GenCode_panics_on_nil_Type.2.2.2 newTable { emptyField with RawName := txt "a" } [] false
     rfl⟩

/-- C16, the claim as stated fails: with the sort option enabled, in a table of package
`model`, the columns `b` and `a` declared in this order give source text with the
members `B`, `A` in this order, not sorted by name. -/
theorem sort_option_does_not_sort :
    Parse specHelpers (modelConfig true).Build (txt "CREATE TABLE `t` (\n`b` int,\n`a` int\n)")
      = some (columnsBA true)
    ∧ (columnsBA true).SortField = true
    ∧ GenCode goFormat (columnsBA true) = some (Output.source
        { PkgName := txt "model", Imports := [], Doc := none, TypeName := txt "T",
          Members := [{ Name := txt "B", Typ := txt "int", Tag := none, Comment := none },
                      { Name := txt "A", Typ := txt "int", Tag := none, Comment := none }],
          Receiver := txt "t", TableName := txt "\"t\"" }) := by
  decide

/-- C16, amended: the sort option has no effect on `GenCode`: its result is the same
whether the option is enabled or not, and when it returns source text the members
are in the order of `Fields`, the declaration order. This holds whatever the
formatter accepts. -/
theorem sort_option_has_no_effect (fmt : Formatter) (t : Table) (b : Bool) :
    GenCode fmt { t with SortField := b } = GenCode fmt t
    ∧ ∀ file, GenCode fmt { t with SortField := b } = some (Output.source file) →
        file.Members.map Member.Name = t.Fields.map Field.Name := by
  have key : GenCode fmt { t with SortField := b } = GenCode fmt t := by
    unfold GenCode
    simp only [genMembers_SortField]
  refine ⟨key, fun file h => ?_⟩
  rw [key] at h
  obtain ⟨_, _, members, paths, receiver, hm, _, hf⟩ := GenCode_source fmt t file h
  rw [hf]
  exact genMembers_names t _ _ _ _ hm

/-- C16 amended, at the columns `b`, `a` of a table of package `model`, with the sort
option enabled: source text is returned, the same as with the option disabled. -/
theorem sort_option_has_no_effect_witness :
    GenCode goFormat (columnsBA true) = GenCode goFormat (columnsBA false)
    ∧ ∃ file, GenCode goFormat (columnsBA true) = some (Output.source file)
        ∧ file.Members.map Member.Name = [txt "B", txt "A"] := by
  refine ⟨(sort_option_has_no_effect goFormat (columnsBA false) true).1, ?_⟩
  have e : (GenCode goFormat (columnsBA true)).map (fun o => decide (o = Output.empty))
      = some false := by
    decide
  cases hg : GenCode goFormat (columnsBA true) with
  | none => rw [hg] at e; cases e
  | some out =>
    cases out with
    | empty => rw [hg] at e; simp at e
    | source file =>
      exact ⟨file, rfl, (sort_option_has_no_effect goFormat (columnsBA false) true).2 file hg⟩

/-- C17. `GenCode` returns the empty output, and does not panic, for every table whose
`Name` is empty, whatever its fields, keys, indexes and configuration are. -/
theorem GenCode_of_empty_name (fmt : Formatter) (t : Table) (h : t.Name = []) :
    GenCode fmt t = some Output.empty := by
  unfold GenCode
  rw [if_pos h]

/-- C17, at a table parsed without a `CREATE TABLE` line, with tags enabled, a field whose
`Type` is nil, a primary key and an index. -/
theorem GenCode_of_empty_name_witness :
    ∃ t, Parse specHelpers { newTable with UseGormTag := true, UseJsonTag := true }
          (txt "`a`  int\n`b` int\nPRIMARY KEY (`b`)\nKEY k (`b`)") = some t
      ∧ t.Fields.map Field.Typ
          = [none, some { size := 0, decimalSize := 0, name := txt "int" }]
      ∧ GenCode goFormat t = some Output.empty := by
  have e : (Parse specHelpers { newTable with UseGormTag := true, UseJsonTag := true }
      (txt "`a`  int\n`b` int\nPRIMARY KEY (`b`)\nKEY k (`b`)")).map
      (fun t => (t.Name, t.Fields.map Field.Typ))
      = some ([], [none, some { size := 0, decimalSize := 0, name := txt "int" }]) := by decide
  cases hp : Parse specHelpers { newTable with UseGormTag := true, UseJsonTag := true }
      (txt "`a`  int\n`b` int\nPRIMARY KEY (`b`)\nKEY k (`b`)") with
  | none => rw [hp] at e; cases e
  | some t =>
    rw [hp] at e
    simp only [Option.map_some', Option.some.injEq, Prod.mk.injEq] at e
    exact ⟨t, rfl, e.2, GenCode_of_empty_name goFormat t e.1⟩

/-- C18 (the code departs from the claim). The compact composite key
PRIMARY KEY (`a`,`b`) is one token for `parseKey`: it appends the single entry
``a`,`b``, which is no column name, whereas the same key written with a blank after
the comma gives the two entries `a` and `b`. -/
theorem parseKey_compact_composite_key :
    (∀ t : Table, parseKey t (txt "PRIMARY KEY (`a`,`b`)")
      = { t with PrimaryKeys := t.PrimaryKeys ++ [txt "a`,`b"] })
    ∧ (∀ t : Table, parseKey t (txt "PRIMARY KEY (`a`, `b`)")
      = { t with PrimaryKeys := t.PrimaryKeys ++ [txt "a", txt "b"] })
    ∧ (Parse specHelpers newTable (txt "PRIMARY KEY (`a`,`b`)")).map Table.PrimaryKeys
      = some [txt "a`,`b"] := by
  refine ⟨fun t => ?_, fun t => ?_, by decide⟩
  · have e : split 32 (txt "PRIMARY KEY (`a`,`b`)")
        = [txt "PRIMARY", txt "KEY", txt "(`a`,`b`)"] := by decide
    have k : keyName (txt "(`a`,`b`)") = txt "a`,`b" := by decide
    unfold parseKey
    rw [e]
    simp only [List.map_cons, List.map_nil, k]
  · have e : split 32 (txt "PRIMARY KEY (`a`, `b`)")
        = [txt "PRIMARY", txt "KEY", txt "(`a`,", txt "`b`)"] := by decide
    have k1 : keyName (txt "(`a`,") = txt "a" := by decide
    have k2 : keyName (txt "`b`)") = txt "b" := by decide
    unfold parseKey
    rw [e]
    simp only [List.map_cons, List.map_nil, k1, k2]

/-- C19 (the code departs from the claim). A comment that opens and closes on one line
leaves the block comment open: every line that starts with `/*` sets the flag,
whatever follows on the line, and only a line that starts with `*/` clears it; the
field line after `/* note */` or after a dump directive is skipped. -/
theorem one_line_comment_suppresses_the_rest :
    Parse specHelpers newTable (txt "/* note */\n`a` int") = some newTable
    ∧ (Parse specHelpers newTable (txt "`a` int")).map (fun t => t.Fields.map Field.RawName)
      = some [txt "a"]
    ∧ Parse specHelpers newTable
        (txt "/*!40101 SET NAMES utf8 */;\nCREATE TABLE `t` (\n`a` int\n)") = some newTable
    ∧ (∀ (H : Helpers) (st : Table × Bool) (l : Bytes),
        hasPrefix (H.trimLine l) (txt "/*") = true → parseLine H st l = some (st.1, true))
    ∧ (∀ (H : Helpers) (t : Table) (l : Bytes),
        ¬ hasPrefix (H.trimLine l) (txt "*/") = true → parseLine H (t, true) l = some (t, true)) :=
  ⟨by decide, by decide, by decide, parseLine_open, parseLine_in_comment⟩

/-- C19, at the line `/* note */` and at a field line read while the flag is set. -/
theorem one_line_comment_suppresses_the_rest_witness :
    parseLine specHelpers (newTable, false) (txt "/* note */") = some (newTable, true)
    ∧ parseLine specHelpers (newTable, true) (txt "`a` int") = some (newTable, true) :=
  ⟨one_line_comment_suppresses_the_rest.2.2.2.1 specHelpers (newTable, false)
      (txt "/* note */") (by decide),
   one_line_comment_suppresses_the_rest.2.2.2.2 specHelpers newTable (txt "`a` int")
      (by decide)⟩

/-- C20. A well-formed index line changes only back-reference sets. For every index name
without a blank, every non-empty list of column names without blank or comma and an
optional `COMMENT x`, `parseUniqueIndex` on the line UNIQUE KEY name (`f1`,...,`fn`)
returns a table that differs from the old one in `Fields` only; the field at each
position is the old field with the new index appended to its back-references once
for every listed name that the name-to-field map sends to that position, and nothing
else of the field changes (so a listed name without a registered field adds nothing);
when no listed name is registered the whole table is unchanged. `parseIndex` does the
same for `KEY name (...)` and `INDEX name (...)`. -/
theorem index_line_changes_back_references_only (H : Helpers) (t : Table) (name : Bytes)
    (fs : List Bytes) (comment : Option Bytes) (hname : 32 ∉ name) (hfs : fs ≠ [])
    (hcols : ∀ f ∈ fs, 32 ∉ f ∧ 44 ∉ f)
    (hcomment : ∀ x ∈ comment, 32 ∉ x ∧ x ≠ txt "COMMENT") :
    (∃ t', parseUniqueIndex H t (uniqueIndexLine name fs comment) = some t'
      ∧ t' = { t with Fields := t'.Fields }
      ∧ (∀ j : Nat, t'.Fields[j]? = (t.Fields[j]?).map (fun g =>
          gainIndex g (fs.countP (fun v => mapGet t.nameFiledMap v = some j))
            { Fields := fs, Typ := Unique, RawName := H.trim name, Comment := comment.getD [] }))
      ∧ ((∀ v ∈ fs, mapGet t.nameFiledMap v = none) → t' = t))
    ∧ (∀ kw : Bytes, kw = txt "KEY" ∨ kw = txt "INDEX" →
      ∃ t', parseIndex H t (indexLine kw name fs comment) = some t'
      ∧ t' = { t with Fields := t'.Fields }
      ∧ (∀ j : Nat, t'.Fields[j]? = (t.Fields[j]?).map (fun g =>
          gainIndex g (fs.countP (fun v => mapGet t.nameFiledMap v = some j))
            { Fields := fs, Typ := Normal, RawName := H.trim name, Comment := comment.getD [] }))
      ∧ ((∀ v ∈ fs, mapGet t.nameFiledMap v = none) → t' = t)) := by
  refine ⟨⟨_, parseUniqueIndex_line H t name fs comment hname hfs hcols hcomment,
      attachIndex_frame _ _ _, fun j => attachIndex_fields _ _ _ j,
      fun h => attachIndex_unknown _ _ _ h⟩,
    fun kw hkw => ⟨_, parseIndex_line H t kw name fs comment ?_ hname hfs hcols hcomment,
      attachIndex_frame _ _ _, fun j => attachIndex_fields _ _ _ j,
      fun h => attachIndex_unknown _ _ _ h⟩⟩
  rcases hkw with h | h <;> subst h <;> decide

/-- C20, after the columns `a` and `b`: the line KEY k (`b`,`zz`) adds the index to `b`
only, and the line UNIQUE KEY u (`zz`) changes nothing. -/
theorem index_line_changes_back_references_only_witness :
    parseIndex specHelpers twoColumns (txt "KEY k (`b`,`zz`)")
      = some { twoColumns with
          Fields := [intColumn (txt "a") (txt "A"),
            { intColumn (txt "b") (txt "B") with
              indexes := [{ Fields := [txt "b", txt "zz"], Typ := Normal, RawName := txt "k",
                            Comment := [] }] }] }
    ∧ parseUniqueIndex specHelpers twoColumns (txt "UNIQUE KEY u (`zz`)") = some twoColumns := by
  constructor
  · obtain ⟨t', h1, h2, h3, _⟩ := (index_line_changes_back_references_only specHelpers
      twoColumns (txt "k") [txt "b", txt "zz"] none (by decide) (by decide) (by decide)
      (by decide)).2 (txt "KEY") (Or.inl rfl)
    have e : indexLine (txt "KEY") (txt "k") [txt "b", txt "zz"] none
        = txt "KEY k (`b`,`zz`)" := by decide
    rw [e] at h1
    rw [h1, h2]
    have hf : t'.Fields = [intColumn (txt "a") (txt "A"),
        { intColumn (txt "b") (txt "B") with
          indexes := [{ Fields := [txt "b", txt "zz"], Typ := Normal, RawName := txt "k",
                        Comment := [] }] }] := by
      apply List.ext_getElem?
      intro j
      rw [h3 j]
      match j with
      | 0 => decide
      | 1 => decide
      | j + 2 => rfl
    rw [hf]
  · obtain ⟨t', h1, _, _, h4⟩ := (index_line_changes_back_references_only specHelpers
      twoColumns (txt "u") [txt "zz"] none (by decide) (by decide) (by decide)
      (by decide)).1
    have e : uniqueIndexLine (txt "u") [txt "zz"] none = txt "UNIQUE KEY u (`zz`)" := by decide
    rw [e] at h1
    rw [h1, h4 (by decide)]

end GoStruct
